import Mathlib

/-!
Table-open cache, block-handle and footer sizes, log frame constants

A verification development for the storage layer of the key-value engine:

* `db/log_format.h`    : the log frame constants,
* `table/format.h`     : `BlockHandle::kMaxEncodedLength`, `Footer::kEncodedLength`,
* `db/table_cache.cc`  : `TableCache::FindTable`, `NewIterator`, `Get`, `Evict`,
  together with the static helpers `DeleteEntry` and `UnrefEntry`.

Stateful code is written in state-passing style.  Every operation of the table
cache returns, next to its C++ result, the new cache and the list of calls it
made on its collaborators (`Event`), in program order.
-/

namespace leveldb

/-! ## db/log_format.h -/

namespace log

/-- The enum `RecordType` of `db/log_format.h`. -/
inductive RecordType
  | kZeroType
  | kFullType
  | kFirstType
  | kMiddleType
  | kLastType
  deriving DecidableEq, Repr

/-- The integer value of each enumerator, as written in the enum. -/
def RecordType.toNat : RecordType → Nat
  | .kZeroType => 0
  | .kFullType => 1
  | .kFirstType => 2
  | .kMiddleType => 3
  | .kLastType => 4

/-- The constant `kMaxRecordType = kLastType`. -/
def kMaxRecordType : Nat := RecordType.kLastType.toNat

/-- The constant `kBlockSize = 32768`. -/
def kBlockSize : Nat := 32768

/-- The constant `kHeaderSize = 4 + 2 + 1`: checksum, length, type. -/
def kHeaderSize : Nat := 4 + 2 + 1

end log

/-! ## table/format.h -/

/-- The class `BlockHandle`: two `uint64_t` fields. -/
structure BlockHandle where
  offset_ : Nat
  size_ : Nat
  deriving DecidableEq, Repr

/-- The enum constant `BlockHandle::kMaxEncodedLength = 10 + 10`. -/
def BlockHandle.kMaxEncodedLength : Nat := 10 + 10

/-- The class `Footer`: the two block handles. -/
structure Footer where
  metaindex_handle_ : BlockHandle
  index_handle_ : BlockHandle
  deriving DecidableEq, Repr

/-- The enum constant `Footer::kEncodedLength = 2*BlockHandle::kMaxEncodedLength + 8`. -/
def Footer.kEncodedLength : Nat := 2 * BlockHandle.kMaxEncodedLength + 8

/-- The constant `kTableMagicNumber`. -/
def kTableMagicNumber : Nat := 0xdb4775248b80fb57

/-- The constant `kBlockTrailerSize`: 1-byte type + 32-bit crc. -/
def kBlockTrailerSize : Nat := 5

/-- Modelled from the spec: the variable-length 64-bit integer encoding used by
`BlockHandle::EncodeTo` (util/coding is not among the sources).  Seven payload
bits per byte, low group first, the high bit set on every byte but the last. -/
def EncodeVarint64 (v : Nat) : List Nat :=
  if v < 128 then [v] else (v % 128 + 128) :: EncodeVarint64 (v / 128)
termination_by v
decreasing_by omega

/-- Modelled from the spec: `BlockHandle::EncodeTo` (table/format.cc is not among
the sources): "encoded as two variable-length 64-bit integers", offset first. -/
def BlockHandle.EncodeTo (h : BlockHandle) : List Nat :=
  EncodeVarint64 h.offset_ ++ EncodeVarint64 h.size_

/-- Modelled from the spec: the fixed-width 32-bit encoding (util/coding is not
among the sources), low byte first. -/
def EncodeFixed32 (v : Nat) : List Nat :=
  [v % 256, v / 256 % 256, v / 65536 % 256, v / 16777216 % 256]

/-- Modelled from the spec: `std::string::resize(n)` on a byte string: cut to
`n` bytes, or fill with zero bytes up to `n`. -/
def resize (s : List Nat) (n : Nat) : List Nat :=
  s.take n ++ List.replicate (n - s.length) 0

/-- Modelled from the spec: `Footer::EncodeTo` into an empty string
(table/format.cc is not among the sources): the two handles, padding up to
`2 * BlockHandle::kMaxEncodedLength` bytes, then the 64-bit magic number as
its low and high 32-bit halves. -/
def Footer.EncodeTo (f : Footer) : List Nat :=
  resize (f.metaindex_handle_.EncodeTo ++ f.index_handle_.EncodeTo)
      (2 * BlockHandle.kMaxEncodedLength)
    ++ EncodeFixed32 (kTableMagicNumber % 4294967296)
    ++ EncodeFixed32 (kTableMagicNumber / 4294967296)

/-! ## Collaborators of the table cache -/

/-- A byte string (`Slice`, `std::string` used as a buffer). -/
abbrev Slice := List Nat

/-- Modelled from the spec: the result type `Status` (leveldb/status.h is not
among the sources): success, or one specific failure kind with its message. -/
inductive Status
  | OK
  | NotFound (msg : String)
  | Corruption (msg : String)
  | NotSupported (msg : String)
  | InvalidArgument (msg : String)
  | IOError (msg : String)
  deriving DecidableEq, Repr

/-- The test `Status::ok()`. -/
def Status.ok : Status → Bool
  | .OK => true
  | _ => false

/-- Modelled from the spec: an open random-access file; the table cache only
stores, passes on and deletes the pointer, so a file is its identity. -/
structure RandomAccessFile where
  id : Nat
  deriving DecidableEq, Repr

/-- Modelled from the spec: an open table (decoded footer and index block); the
table cache only stores, passes on and deletes the pointer. -/
structure Table where
  id : Nat
  deriving DecidableEq, Repr

/-- The struct `TableAndFile`; both members are pointers and may be NULL. -/
structure TableAndFile where
  file : Option RandomAccessFile
  table : Option Table
  deriving DecidableEq, Repr

/-- Modelled from the spec: the 8-byte fixed-width encoding of a 64-bit number
(util/coding is not among the sources), low byte first. -/
def EncodeFixed64 (v : Nat) : Slice :=
  [v % 256, v / 256 % 256, v / 65536 % 256, v / 16777216 % 256,
   v / 4294967296 % 256, v / 1099511627776 % 256, v / 281474976710656 % 256,
   v / 72057594037927936 % 256]

/-- The answers of the collaborators at the time of one call: the file-name
functions of db/filename, `Env::NewRandomAccessFile`, `Table::Open` (with the
options of the cache) and `Table::InternalGet`.  A status comes with the value
left in the out-parameter, and a pointer argument is passed as it is (NULL is
`none`). -/
structure Env where
  TableFileName : String → Nat → String
  SSTTableFileName : String → Nat → String
  NewRandomAccessFile : String → Status × Option RandomAccessFile
  TableOpen : Option RandomAccessFile → Nat → Status × Option Table
  InternalGet : Option Table → Slice → Status

/-! ## The cache behind `cache_` -/

/-- Modelled from the spec: one entry of the LRU cache (util/cache is not among
the sources).  `refs` counts the handles given out and not yet released;
`deleted` records that the deleter has run on `value`. -/
structure LRUHandle where
  key : Slice
  value : TableAndFile
  charge : Nat
  refs : Nat
  deleted : Bool
  deriving DecidableEq, Repr

/-- The static function `DeleteEntry(key, value)`, the deleter that `FindTable`
passes to `Cache::Insert`: it deletes the table, the file and the
`TableAndFile`; the entry records that it has run. -/
def DeleteEntry (e : LRUHandle) : LRUHandle :=
  { e with deleted := true }

/-- Modelled from the spec: the LRU cache made by `NewLRUCache` (util/cache is
not among the sources).  `entries` is the arena of all entries ever inserted,
a `Cache::Handle*` is an index into it; `lru` lists the handles that the map
still answers, least recently used first. -/
structure LRUCache where
  capacity : Nat
  entries : List LRUHandle
  lru : List Nat
  deriving DecidableEq, Repr

/-- Modelled from the spec: `NewLRUCache(capacity)`, an empty cache. -/
def NewLRUCache (capacity : Nat) : LRUCache :=
  { capacity := capacity, entries := [], lru := [] }

namespace LRUCache

/-- Modelled from the spec: the budget in use, the total charge of the entries
not yet destroyed. -/
def usage (c : LRUCache) : Nat :=
  (c.entries.map (fun e => if e.deleted then 0 else e.charge)).sum

/-- Modelled from the spec: does handle `h` name an entry with key `key`. -/
def hasKey (c : LRUCache) (key : Slice) (h : Nat) : Bool :=
  match c.entries[h]? with
  | some e => e.key == key
  | none => false

/-- Modelled from the spec: the map lookup, the handle the map answers for
`key`. -/
def find (c : LRUCache) (key : Slice) : Option Nat :=
  c.lru.find? (c.hasKey key)

/-- Modelled from the spec: `Cache::Lookup`.  A hit takes a reference and makes
the entry the most recently used; a miss changes nothing. -/
def Lookup (c : LRUCache) (key : Slice) : Option Nat × LRUCache :=
  match c.find key with
  | none => (none, c)
  | some h =>
    (some h,
     { c with
       entries := c.entries.modify (fun e => { e with refs := e.refs + 1 }) h
       lru := c.lru.filter (fun x => x != h) ++ [h] })

/-- Modelled from the spec: removal of `h` from the map ("eviction only removes
the entry from future lookups"); the deleter runs at once on an entry nobody
references, on a referenced one when its last reference is released. -/
def Remove (c : LRUCache) (h : Nat) : LRUCache :=
  { c with
    entries := c.entries.modify (fun e => if e.refs = 0 then DeleteEntry e else e) h
    lru := c.lru.filter (fun x => x != h) }

/-- Modelled from the spec: the capacity policy, evict the least recently used
entry while the budget is exceeded and the map is not empty. -/
def evictWhileOver : Nat → LRUCache → LRUCache
  | 0, c => c
  | fuel + 1, c =>
    if c.capacity < c.usage then
      match c.lru with
      | [] => c
      | h :: _ => evictWhileOver fuel (c.Remove h)
    else c

/-- Modelled from the spec: a new entry enters the arena and the map; it is
handed out with one reference and is the most recently used. -/
def Append (c : LRUCache) (key : Slice) (value : TableAndFile) (charge : Nat) : LRUCache :=
  { c with
    entries := c.entries ++
      [{ key := key, value := value, charge := charge, refs := 1, deleted := false }]
    lru := c.lru ++ [c.entries.length] }

/-- Modelled from the spec: `Cache::Insert(key, value, charge, deleter)`.  The
new entry is handed out with one reference, supersedes an earlier entry of the
same key in the map, and the capacity policy runs.  Always returns a handle. -/
def Insert (c : LRUCache) (key : Slice) (value : TableAndFile) (charge : Nat) :
    Nat × LRUCache :=
  let c1 := c.Append key value charge
  let c2 := match c.find key with
    | some old => c1.Remove old
    | none => c1
  (c.entries.length, c2.evictWhileOver c2.lru.length)

/-- Modelled from the spec: `Cache::Release(handle)`.  Drops one reference; the
deleter runs when this was the last one and the map no longer holds the
entry. -/
def Release (c : LRUCache) (h : Nat) : LRUCache :=
  { c with
    entries := c.entries.modify
      (fun e =>
        if e.refs - 1 = 0 ∧ h ∉ c.lru then DeleteEntry { e with refs := e.refs - 1 }
        else { e with refs := e.refs - 1 }) h }

/-- Modelled from the spec: `Cache::Erase(key)`, remove the entry of `key` from
the map whatever its reference count. -/
def Erase (c : LRUCache) (key : Slice) : LRUCache :=
  match c.find key with
  | none => c
  | some h => c.Remove h

/-- Modelled from the spec: `Cache::Value(handle)`; `none` stands for the
dereference of a NULL, unknown or destroyed handle. -/
def Value (c : LRUCache) (handle : Option Nat) : Option TableAndFile :=
  match handle with
  | none => none
  | some h =>
    match c.entries[h]? with
    | some e => if e.deleted then none else some e.value
    | none => none

end LRUCache

/-! ## db/table_cache.cc -/

/-- The calls a table-cache operation makes, with their arguments. -/
inductive Event
  | Lookup (key : Slice)
  | NewRandomAccessFile (fname : String)
  | TableOpen (file : Option RandomAccessFile) (file_size : Nat)
  | Assert (holds : Bool)
  | DeleteFile (file : Option RandomAccessFile)
  | Insert (key : Slice) (value : TableAndFile) (charge : Nat)
  | Value (handle : Option Nat)
  | TableNewIterator (table : Option Table)
  | RegisterCleanup (handle : Nat)
  | NewErrorIterator (s : Status)
  | InternalGet (table : Option Table) (k : Slice)
  | Release (handle : Nat)
  | Erase (key : Slice)
  deriving DecidableEq, Repr

/-- Is the call a `Cache::Insert`. -/
def Event.isInsert : Event → Bool
  | .Insert _ _ _ => true
  | _ => false

/-- Is the call an `Env::NewRandomAccessFile`. -/
def Event.isNewRandomAccessFile : Event → Bool
  | .NewRandomAccessFile _ => true
  | _ => false

/-- Is the call a `Table::Open`. -/
def Event.isTableOpen : Event → Bool
  | .TableOpen _ _ => true
  | _ => false

/-- Is the call a `Table::InternalGet`. -/
def Event.isInternalGet : Event → Bool
  | .InternalGet _ _ => true
  | _ => false

/-- Is the call a `Cache::Release`. -/
def Event.isRelease : Event → Bool
  | .Release _ => true
  | _ => false

/-- Is the call an `Iterator::RegisterCleanup`. -/
def Event.isRegisterCleanup : Event → Bool
  | .RegisterCleanup _ => true
  | _ => false

/-- The class `TableCache`: `dbname_` and `cache_`.  The members `env_` and
`options_` point at collaborators whose answers can change between two calls;
each operation takes their current answers as `env`. -/
structure TableCache where
  dbname_ : String
  cache_ : LRUCache
  deriving DecidableEq, Repr

/-- The constructor `TableCache::TableCache(dbname, options, entries)`. -/
def TableCache.new (dbname : String) (entries : Nat) : TableCache :=
  { dbname_ := dbname, cache_ := NewLRUCache entries }

/-- What `FindTable` leaves behind: the returned status, `*handle`, the cache
and the calls made. -/
structure FindTableResult where
  s : Status
  handle : Option Nat
  cache : LRUCache
  trace : List Event

/-- The function `TableCache::FindTable`. -/
def TableCache.FindTable (tc : TableCache) (env : Env) (file_number file_size : Nat) :
    FindTableResult :=
  let key := EncodeFixed64 file_number
  let looked := tc.cache_.Lookup key
  match looked.1 with
  | some h =>
    { s := Status.OK, handle := some h, cache := looked.2, trace := [Event.Lookup key] }
  | none =>
    let fname := env.TableFileName tc.dbname_ file_number
    let r1 := env.NewRandomAccessFile fname
    let old_fname := env.SSTTableFileName tc.dbname_ file_number
    let r2 := env.NewRandomAccessFile old_fname
    -- s, file and the calls after the open attempts; the attempt under the
    -- legacy name is made, and its answer r2 used, only when the first failed
    let s1 : Status := if r1.1.ok then r1.1 else if r2.1.ok then Status.OK else r1.1
    let file : Option RandomAccessFile := if r1.1.ok then r1.2 else r2.2
    let t1 : List Event :=
      if r1.1.ok then [Event.Lookup key, Event.NewRandomAccessFile fname]
      else [Event.Lookup key, Event.NewRandomAccessFile fname,
            Event.NewRandomAccessFile old_fname]
    -- s, table and the calls after Table::Open
    let r3 := env.TableOpen file file_size
    let s2 : Status := if s1.ok then r3.1 else s1
    let table : Option Table := if s1.ok then r3.2 else none
    let t2 : List Event := if s1.ok then t1 ++ [Event.TableOpen file file_size] else t1
    if s2.ok then
      let tf : TableAndFile := { file := file, table := table }
      let inserted := looked.2.Insert key tf 1
      { s := s2, handle := some inserted.1, cache := inserted.2,
        trace := t2 ++ [Event.Insert key tf 1] }
    else
      { s := s2, handle := none, cache := looked.2,
        trace := t2 ++ [Event.Assert (table == none), Event.DeleteFile file] }

/-- The static function `UnrefEntry(cache, h)`: `cache->Release(h)`. -/
def UnrefEntry (cache : LRUCache) (h : Nat) : LRUCache :=
  cache.Release h

/-- Modelled from the spec: an `Iterator` as the table cache sees it
(leveldb/iterator.h is not among the sources): the table it reads (`none` for
the error iterator), its status, and the registered cleanups, each an
`UnrefEntry(cache_, handle)` named by its handle. -/
structure Iterator where
  source : Option Table
  status : Status
  cleanups : List Nat
  deriving DecidableEq, Repr

/-- Modelled from the spec: `NewErrorIterator(s)`. -/
def NewErrorIterator (s : Status) : Iterator :=
  { source := none, status := s, cleanups := [] }

/-- Modelled from the spec: `Table::NewIterator(options)`, called through the
pointer `t`. -/
def Table.NewIterator (t : Option Table) : Iterator :=
  { source := t, status := Status.OK, cleanups := [] }

/-- Modelled from the spec: `Iterator::RegisterCleanup(&UnrefEntry, cache_, handle)`. -/
def Iterator.RegisterCleanup (it : Iterator) (handle : Nat) : Iterator :=
  { it with cleanups := it.cleanups ++ [handle] }

/-- Modelled from the spec: the destructor of an iterator runs every registered
cleanup once. -/
def Iterator.destroy (it : Iterator) (cache : LRUCache) : LRUCache :=
  it.cleanups.foldl UnrefEntry cache

/-- What `NewIterator` leaves behind.  `result = none` stands for undefined
behaviour: `cache_->Value` was called on a NULL, unknown or destroyed handle. -/
structure NewIteratorResult where
  result : Option Iterator
  tableptr : Option Table
  cache : LRUCache
  trace : List Event

/-- The function `TableCache::NewIterator`, called with a non-NULL `tableptr`. -/
def TableCache.NewIterator (tc : TableCache) (env : Env) (file_number file_size : Nat) :
    NewIteratorResult :=
  let found := tc.FindTable env file_number file_size
  if !found.s.ok then
    { result := some (NewErrorIterator found.s), tableptr := none, cache := found.cache,
      trace := found.trace ++ [Event.NewErrorIterator found.s] }
  else
    match found.handle, found.cache.Value found.handle with
    | some handle, some tf =>
      { result := some ((Table.NewIterator tf.table).RegisterCleanup handle),
        tableptr := tf.table, cache := found.cache,
        trace := found.trace ++ [Event.Value found.handle, Event.TableNewIterator tf.table,
          Event.RegisterCleanup handle] }
    | _, _ =>
      { result := none, tableptr := none, cache := found.cache,
        trace := found.trace ++ [Event.Value found.handle] }

/-- What `Get` leaves behind.  `s = none` stands for undefined behaviour:
`cache_->Value` was called on a NULL, unknown or destroyed handle. -/
structure GetResult where
  s : Option Status
  cache : LRUCache
  trace : List Event

/-- The function `TableCache::Get`. -/
def TableCache.Get (tc : TableCache) (env : Env) (file_number file_size : Nat) (k : Slice) :
    GetResult :=
  let found := tc.FindTable env file_number file_size
  if found.s.ok then
    match found.handle, found.cache.Value found.handle with
    | some handle, some tf =>
      { s := some (env.InternalGet tf.table k), cache := found.cache.Release handle,
        trace := found.trace ++ [Event.Value found.handle, Event.InternalGet tf.table k,
          Event.Release handle] }
    | _, _ =>
      { s := none, cache := found.cache, trace := found.trace ++ [Event.Value found.handle] }
  else
    { s := some found.s, cache := found.cache, trace := found.trace }

/-- The function `TableCache::Evict`. -/
def TableCache.Evict (tc : TableCache) (file_number : Nat) : TableCache × List Event :=
  let key := EncodeFixed64 file_number
  ({ tc with cache_ := tc.cache_.Erase key }, [Event.Erase key])

/-! ## Observations on a cache and the table cache with its clients -/

namespace LRUCache

/-- The reference count of the entry behind handle `h` (0 for no entry). -/
def refsOf (c : LRUCache) (h : Nat) : Nat :=
  match c.entries[h]? with
  | some e => e.refs
  | none => 0

/-- Handle `h` names an entry on which `DeleteEntry` has not run. -/
def live (c : LRUCache) (h : Nat) : Bool :=
  match c.entries[h]? with
  | some e => !e.deleted
  | none => false

/-- The `TableAndFile` stored in the entry behind handle `h`. -/
def valueOf (c : LRUCache) (h : Nat) : Option TableAndFile :=
  match c.entries[h]? with
  | some e => some e.value
  | none => none

/-- The number of open table files: the `TableAndFile` values inserted and not
yet passed to `DeleteEntry`. -/
def openFiles (c : LRUCache) : Nat :=
  c.entries.countP (fun e => !e.deleted)

/-- The number of open entries that some unreleased handle still references. -/
def pinned (c : LRUCache) : Nat :=
  c.entries.countP (fun e => !e.deleted && decide (0 < e.refs))

/-- No destroyed entry is answered by the map. -/
def MapLive (c : LRUCache) : Prop :=
  ∀ (h : Nat) (e : LRUHandle), c.entries[h]? = some e → e.deleted = true → h ∉ c.lru

/-- An entry outside the map that nobody references has been destroyed. -/
def OutDestroyed (c : LRUCache) : Prop :=
  ∀ (h : Nat) (e : LRUHandle), c.entries[h]? = some e → h ∉ c.lru → e.refs = 0 → e.deleted = true

/-- Every entry was inserted with charge 1. -/
def UnitCharge (c : LRUCache) : Prop :=
  ∀ (h : Nat) (e : LRUHandle), c.entries[h]? = some e → e.charge = 1

/-- The capacity policy has run: the budget is respected or the map is empty. -/
def Budget (c : LRUCache) : Prop :=
  c.usage ≤ c.capacity ∨ c.lru = []

/-- The map answers at most one handle per key. -/
def UniqueKeys (c : LRUCache) : Prop :=
  ∀ a ∈ c.lru, ∀ b ∈ c.lru, a ≠ b →
    ∀ ea eb : LRUHandle, c.entries[a]? = some ea → c.entries[b]? = some eb → ea.key ≠ eb.key

/-- A destroyed entry has no reference left. -/
def RefLive (c : LRUCache) : Prop :=
  ∀ (h : Nat) (e : LRUHandle), c.entries[h]? = some e → e.deleted = true → e.refs = 0

/-- The invariants of a cache used only through `TableCache`. -/
structure WF (c : LRUCache) : Prop where
  mapLive : c.MapLive
  outDestroyed : c.OutDestroyed
  unitCharge : c.UnitCharge
  budget : c.Budget
  uniqueKeys : c.UniqueKeys
  refLive : c.RefLive

/-- The number of references handed out and not yet released, over all
entries. -/
def totalRefs (c : LRUCache) : Nat :=
  (c.entries.map (fun e => e.refs)).sum

end LRUCache

/-- A table cache together with the handles its clients hold and have not yet
released: one per registered `UnrefEntry` cleanup of a live iterator, one per
handle obtained from `FindTable` directly. -/
structure State where
  tc : TableCache
  held : List Nat
  deriving DecidableEq, Repr

/-- The operations of the clients of a table cache. -/
inductive Op
  | FindTable (env : Env) (file_number file_size : Nat)
  | NewIterator (env : Env) (file_number file_size : Nat)
  | Get (env : Env) (file_number file_size : Nat) (k : Slice)
  | Evict (file_number : Nat)
  | Cleanup (handle : Nat)

/-- One operation on a state; `none` when the operation is not possible (no
holder of the handle to clean up) or runs into undefined behaviour. -/
def State.step (w : State) : Op → Option State
  | .FindTable env n sz =>
    let r := w.tc.FindTable env n sz
    some { tc := { w.tc with cache_ := r.cache }, held := w.held ++ r.handle.toList }
  | .NewIterator env n sz =>
    let r := w.tc.NewIterator env n sz
    match r.result with
    | none => none
    | some it => some { tc := { w.tc with cache_ := r.cache }, held := w.held ++ it.cleanups }
  | .Get env n sz k =>
    let r := w.tc.Get env n sz k
    match r.s with
    | none => none
    | some _ => some { tc := { w.tc with cache_ := r.cache }, held := w.held }
  | .Evict n => some { tc := (w.tc.Evict n).1, held := w.held }
  | .Cleanup h =>
    if h ∈ w.held then
      some { tc := { w.tc with cache_ := UnrefEntry w.tc.cache_ h }, held := w.held.erase h }
    else none

/-- The states a table cache constructed with an entry budget of `N` can
reach. -/
inductive Reachable (dbname : String) (N : Nat) : State → Prop
  | init : Reachable dbname N { tc := TableCache.new dbname N, held := [] }
  | step {w w' : State} (op : Op) :
      Reachable dbname N w → w.step op = some w' → Reachable dbname N w'

/-- The state `w2` is reached from `w1` by operations of the clients. -/
inductive Reaches : State → State → Prop
  | refl (w : State) : Reaches w w
  | step {w1 w2 w3 : State} (op : Op) :
      Reaches w1 w2 → w2.step op = some w3 → Reaches w1 w3

/-- The invariant of the reachable states: the cache is well formed, keeps its
entry budget, and its reference counts are exactly the handles held. -/
def Inv (N : Nat) (w : State) : Prop :=
  w.tc.cache_.WF ∧ w.tc.cache_.capacity = N ∧
  (∀ h, w.tc.cache_.refsOf h = w.held.count h) ∧
  w.tc.cache_.totalRefs = w.held.length

/-! ## Concrete collaborators used in examples -/

/-- File names of the current convention, as in an examples directory. -/
def exampleTableFileName (dbname : String) (number : Nat) : String :=
  dbname ++ "/" ++ toString number ++ ".ldb"

/-- File names of the legacy convention. -/
def exampleSSTTableFileName (dbname : String) (number : Nat) : String :=
  dbname ++ "/" ++ toString number ++ ".sst"

/-- An environment in which every file opens and every table decodes. -/
def envOpens : Env :=
  { TableFileName := exampleTableFileName
    SSTTableFileName := exampleSSTTableFileName
    NewRandomAccessFile := fun f => (Status.OK, some { id := f.length })
    TableOpen := fun _ sz => (Status.OK, some { id := sz })
    InternalGet := fun _ _ => Status.OK }

/-- An environment in which only the legacy file of table 5 exists. -/
def envLegacy : Env :=
  { TableFileName := exampleTableFileName
    SSTTableFileName := exampleSSTTableFileName
    NewRandomAccessFile := fun f =>
      if f = "db/5.sst" then (Status.OK, some { id := 7 }) else (Status.NotFound f, none)
    TableOpen := fun _ sz => (Status.OK, some { id := sz })
    InternalGet := fun _ _ => Status.NotFound "key" }

/-- An environment in which every file opens and no table decodes. -/
def envCorrupt : Env :=
  { TableFileName := exampleTableFileName
    SSTTableFileName := exampleSSTTableFileName
    NewRandomAccessFile := fun f => (Status.OK, some { id := f.length })
    TableOpen := fun _ _ => (Status.Corruption "bad magic number", none)
    InternalGet := fun _ _ => Status.OK }

/-- An environment in which no file exists under either name. -/
def envMissing : Env :=
  { TableFileName := exampleTableFileName
    SSTTableFileName := exampleSSTTableFileName
    NewRandomAccessFile := fun f => (Status.NotFound f, none)
    TableOpen := fun _ _ => (Status.Corruption "not a table", none)
    InternalGet := fun _ _ => Status.OK }

/-- The state of a table cache with an entry budget of 1 after two
`NewIterator` calls on the tables 1 and 2, both iterators still alive. -/
def stateTwoIterators : State :=
  { tc :=
      { dbname_ := "db"
        cache_ :=
          { capacity := 1
            entries :=
              [{ key := EncodeFixed64 1
                 value := { file := some { id := 8 }, table := some { id := 100 } }
                 charge := 1, refs := 1, deleted := false },
               { key := EncodeFixed64 2
                 value := { file := some { id := 8 }, table := some { id := 100 } }
                 charge := 1, refs := 1, deleted := false }]
            lru := [] } }
    held := [0, 1] }

/-- The state of a table cache with an entry budget of 4 after one
`NewIterator` call on table 5, the iterator still alive. -/
def stateOneIterator : State :=
  { tc :=
      { dbname_ := "db"
        cache_ :=
          { capacity := 4
            entries :=
              [{ key := EncodeFixed64 5
                 value := { file := some { id := 8 }, table := some { id := 100 } }
                 charge := 1, refs := 1, deleted := false }]
            lru := [0] } }
    held := [0] }

/-- A table cache with an entry budget of 4 that has opened table 5 once. -/
def tcWarm : TableCache :=
  { TableCache.new "db" 4 with
    cache_ := ((TableCache.new "db" 4).FindTable envOpens 5 100).cache }

/-! ## Lemmas on the cache -/

namespace LRUCache

theorem getElem?_modify_some (g : LRUHandle → LRUHandle) (h i : Nat) (l : List LRUHandle)
    (e' : LRUHandle) :
    (l.modify g h)[i]? = some e' ↔ ∃ e, l[i]? = some e ∧ e' = if h = i then g e else e := by
  rw [List.getElem?_modify]
  cases l[i]? <;> simp [eq_comm]

theorem find_some {c : LRUCache} {key : Slice} {h : Nat} (hf : c.find key = some h) :
    h ∈ c.lru ∧ ∃ e, c.entries[h]? = some e ∧ e.key = key := by
  unfold find at hf
  refine ⟨List.mem_of_find?_eq_some hf, ?_⟩
  have hk := List.find?_some hf
  unfold hasKey at hk
  cases he : c.entries[h]? with
  | none => simp [he] at hk
  | some e => exact ⟨e, rfl, by simpa [he] using hk⟩

theorem find_none {c : LRUCache} {key : Slice} (hf : c.find key = none) :
    ∀ x ∈ c.lru, ∀ e, c.entries[x]? = some e → e.key ≠ key := by
  unfold find at hf
  intro x hx e he hk
  have := List.find?_eq_none.mp hf x hx
  simp [hasKey, he, hk] at this

theorem sum_modify_le (w : LRUHandle → Nat) (g : LRUHandle → LRUHandle)
    (hg : ∀ e, w (g e) ≤ w e) :
    ∀ (l : List LRUHandle) (h : Nat), ((l.modify g h).map w).sum ≤ (l.map w).sum := by
  intro l
  induction l with
  | nil => intro h; simp
  | cons a t ih =>
    intro h
    cases h with
    | zero => simp; exact hg a
    | succ n => simp; exact ih n

theorem usage_Remove_le (c : LRUCache) (h : Nat) : (c.Remove h).usage ≤ c.usage := by
  unfold usage Remove
  apply sum_modify_le
  intro e
  by_cases hr : e.refs = 0 <;> simp [hr, DeleteEntry]

theorem usage_Release_le (c : LRUCache) (h : Nat) : (c.Release h).usage ≤ c.usage := by
  unfold usage Release
  apply sum_modify_le
  intro e
  cases hd : e.deleted <;> split <;> simp [hd, DeleteEntry]


theorem MapLive_Remove {c : LRUCache} (h : Nat) (hc : c.MapLive) : (c.Remove h).MapLive := by
  intro i e' he' hd hi
  simp only [Remove, DeleteEntry, getElem?_modify_some] at he'
  simp only [Remove, List.mem_filter, bne_iff_ne, ne_eq] at hi
  obtain ⟨e, he, rfl⟩ := he'
  by_cases hh : h = i
  · exact hi.2 hh.symm
  · simp only [hh, if_false] at hd
    exact hc i e he hd hi.1

theorem OutDestroyed_Remove {c : LRUCache} (h : Nat) (hc : c.OutDestroyed) :
    (c.Remove h).OutDestroyed := by
  intro i e' he' hi hr
  simp only [Remove, DeleteEntry, getElem?_modify_some] at he'
  simp only [Remove, List.mem_filter, bne_iff_ne, ne_eq, not_and, not_not] at hi
  obtain ⟨e, he, rfl⟩ := he'
  by_cases hh : h = i
  · simp only [hh, if_true] at hr ⊢
    by_cases h0 : e.refs = 0
    · simp [h0]
    · simp [h0] at hr
  · simp only [hh, if_false] at hr ⊢
    refine hc i e he ?_ hr
    intro hmem
    exact hh (hi hmem).symm

theorem UnitCharge_Remove {c : LRUCache} (h : Nat) (hc : c.UnitCharge) :
    (c.Remove h).UnitCharge := by
  intro i e' he'
  simp only [Remove, DeleteEntry, getElem?_modify_some] at he'
  obtain ⟨e, he, rfl⟩ := he'
  have := hc i e he
  split <;> [split; skip] <;> simp [this]

theorem UniqueKeys_Remove {c : LRUCache} (h : Nat) (hc : c.UniqueKeys) :
    (c.Remove h).UniqueKeys := by
  intro a ha b hb hab ea eb hea heb
  simp only [Remove, DeleteEntry, getElem?_modify_some] at hea heb
  simp only [Remove, List.mem_filter] at ha hb
  obtain ⟨ea0, hea0, rfl⟩ := hea
  obtain ⟨eb0, heb0, rfl⟩ := heb
  have := hc a ha.1 b hb.1 hab ea0 eb0 hea0 heb0
  have key_eq : ∀ (x : LRUHandle) (p : Prop) [Decidable p],
      (if p then (if x.refs = 0 then { x with deleted := true } else x) else x).key = x.key := by
    intro x p _
    split <;> [split; skip] <;> rfl
  rw [key_eq, key_eq]
  exact this


theorem getElem?_concat_some (l : List LRUHandle) (a : LRUHandle) (i : Nat) (e : LRUHandle) :
    (l ++ [a])[i]? = some e ↔ l[i]? = some e ∨ (i = l.length ∧ e = a) := by
  rcases Nat.lt_trichotomy i l.length with h | h | h
  · rw [List.getElem?_append_left h]
    constructor
    · exact Or.inl
    · rintro (h1 | ⟨h1, -⟩)
      · exact h1
      · omega
  · subst h
    rw [List.getElem?_concat_length]
    have : l[l.length]? = none := List.getElem?_eq_none (le_refl _)
    simp [this, eq_comm]
  · have h1 : l[i]? = none := List.getElem?_eq_none (by omega)
    have h2 : (l ++ [a])[i]? = none := List.getElem?_eq_none (by simp; omega)
    rw [h1, h2]
    constructor
    · intro h3; cases h3
    · rintro (h3 | ⟨h3, -⟩)
      · cases h3
      · omega

theorem lt_length_of_getElem? {l : List LRUHandle} {i : Nat} {e : LRUHandle}
    (h : l[i]? = some e) : i < l.length := by
  by_contra hn
  rw [List.getElem?_eq_none (by omega)] at h
  cases h

theorem Lookup_miss {c : LRUCache} {key : Slice} (hf : c.find key = none) :
    c.Lookup key = (none, c) := by
  simp [Lookup, hf]

theorem Lookup_hit {c : LRUCache} {key : Slice} {h : Nat} (hf : c.find key = some h) :
    c.Lookup key = (some h,
      { c with
        entries := c.entries.modify (fun e => { e with refs := e.refs + 1 }) h
        lru := c.lru.filter (fun x => x != h) ++ [h] }) := by
  simp [Lookup, hf]

theorem mem_moveToEnd {l : List Nat} {h : Nat} (hh : h ∈ l) (x : Nat) :
    x ∈ l.filter (fun y => y != h) ++ [h] ↔ x ∈ l := by
  simp only [List.mem_append, List.mem_filter, bne_iff_ne, ne_eq, List.mem_singleton]
  constructor
  · rintro (⟨h1, -⟩ | h1)
    · exact h1
    · exact h1 ▸ hh
  · intro h1
    by_cases hx : x = h
    · exact Or.inr hx
    · exact Or.inl ⟨h1, hx⟩

theorem WF_Lookup {c : LRUCache} (key : Slice) (hc : c.WF) : (c.Lookup key).2.WF := by
  cases hf : c.find key with
  | none => rw [Lookup_miss hf]; exact hc
  | some h =>
    rw [Lookup_hit hf]
    have hmem := (find_some hf).1
    refine ⟨?_, ?_, ?_, ?_, ?_, ?_⟩
    · intro i e' he' hd hi
      simp only [getElem?_modify_some] at he'
      obtain ⟨e, he, rfl⟩ := he'
      rw [mem_moveToEnd hmem] at hi
      refine hc.mapLive i e he ?_ hi
      split at hd <;> simpa using hd
    · intro i e' he' hi hr
      simp only [getElem?_modify_some] at he'
      obtain ⟨e, he, rfl⟩ := he'
      rw [mem_moveToEnd hmem] at hi
      by_cases hh : h = i
      · exact absurd (hh ▸ hmem) hi
      · simp only [hh, if_false] at hr ⊢
        exact hc.outDestroyed i e he hi hr
    · intro i e' he'
      simp only [getElem?_modify_some] at he'
      obtain ⟨e, he, rfl⟩ := he'
      have := hc.unitCharge i e he
      split <;> simp [this]
    · left
      rcases hc.budget with hb | hb
      · refine le_trans ?_ hb
        unfold usage
        apply sum_modify_le
        intro e
        simp
      · rw [hb] at hmem
        cases hmem
    · intro a ha b hb hab ea eb hea heb
      simp only [getElem?_modify_some] at hea heb
      rw [mem_moveToEnd hmem] at ha hb
      obtain ⟨ea0, hea0, rfl⟩ := hea
      obtain ⟨eb0, heb0, rfl⟩ := heb
      have := hc.uniqueKeys a ha b hb hab ea0 eb0 hea0 heb0
      have key_eq : ∀ (x : LRUHandle) (p : Prop) [Decidable p],
          (if p then { x with refs := x.refs + 1 } else x).key = x.key := by
        intro x p _
        split <;> rfl
      rw [key_eq, key_eq]
      exact this
    · intro i e' he' hd
      simp only [getElem?_modify_some] at he'
      obtain ⟨e, he, rfl⟩ := he'
      by_cases hh : h = i
      · subst hh
        simp only [if_true] at hd
        exact absurd hmem (hc.mapLive h e he hd)
      · simp only [hh, if_false] at hd ⊢
        exact hc.refLive i e he hd

theorem Release_entry {c : LRUCache} {h i : Nat} {e' : LRUHandle}
    (he' : (c.Release h).entries[i]? = some e') :
    ∃ e, c.entries[i]? = some e ∧ e'.key = e.key ∧ e'.value = e.value ∧
      e'.charge = e.charge ∧
      ((h ≠ i ∧ e'.refs = e.refs ∧ e'.deleted = e.deleted) ∨
       (h = i ∧ e'.refs = e.refs - 1 ∧
        (e'.deleted = true ↔ e.deleted = true ∨ (e.refs - 1 = 0 ∧ h ∉ c.lru)))) := by
  simp only [Release, getElem?_modify_some] at he'
  obtain ⟨e, he, rfl⟩ := he'
  refine ⟨e, he, ?_⟩
  by_cases hh : h = i
  · subst hh
    rw [if_pos rfl]
    by_cases hcond : e.refs - 1 = 0 ∧ h ∉ c.lru
    · rw [if_pos hcond]
      refine ⟨rfl, rfl, rfl, Or.inr ⟨rfl, rfl, ?_⟩⟩
      constructor
      · intro _
        exact Or.inr hcond
      · intro _
        rfl
    · rw [if_neg hcond]
      refine ⟨rfl, rfl, rfl, Or.inr ⟨rfl, rfl, ?_⟩⟩
      constructor
      · exact Or.inl
      · rintro (h1 | h1)
        · exact h1
        · exact absurd h1 hcond
  · rw [if_neg hh]
    exact ⟨rfl, rfl, rfl, Or.inl ⟨hh, rfl, rfl⟩⟩

theorem WF_Release {c : LRUCache} (h : Nat) (hc : c.WF) : (c.Release h).WF := by
  have hlru : (c.Release h).lru = c.lru := rfl
  refine ⟨?_, ?_, ?_, ?_, ?_, ?_⟩
  · intro i e' he' hd hi
    rw [hlru] at hi
    obtain ⟨e, he, -, -, -, hcase⟩ := Release_entry he'
    rcases hcase with ⟨-, -, hdel⟩ | ⟨hh, -, hdel⟩
    · rw [hdel] at hd
      exact hc.mapLive i e he hd hi
    · subst hh
      rcases hdel.mp hd with h1 | h1
      · exact hc.mapLive h e he h1 hi
      · exact h1.2 hi
  · intro i e' he' hi hr
    rw [hlru] at hi
    obtain ⟨e, he, -, -, -, hcase⟩ := Release_entry he'
    rcases hcase with ⟨-, hrefs, hdel⟩ | ⟨hh, hrefs, hdel⟩
    · rw [hdel]
      rw [hrefs] at hr
      exact hc.outDestroyed i e he hi hr
    · subst hh
      exact hdel.mpr (Or.inr ⟨by omega, hi⟩)
  · intro i e' he'
    obtain ⟨e, he, -, -, hch, -⟩ := Release_entry he'
    rw [hch]
    exact hc.unitCharge i e he
  · rcases hc.budget with hb | hb
    · exact Or.inl (le_trans (usage_Release_le c h) hb)
    · exact Or.inr hb
  · intro a ha b hb hab ea eb hea heb
    rw [hlru] at ha hb
    obtain ⟨ea0, hea0, hka, -⟩ := Release_entry hea
    obtain ⟨eb0, heb0, hkb, -⟩ := Release_entry heb
    rw [hka, hkb]
    exact hc.uniqueKeys a ha b hb hab ea0 eb0 hea0 heb0
  · intro i e' he' hd
    obtain ⟨e, he, -, -, -, hcase⟩ := Release_entry he'
    rcases hcase with ⟨-, hrefs, hdel⟩ | ⟨hh, hrefs, hdel⟩
    · rw [hdel] at hd
      rw [hrefs]
      exact hc.refLive i e he hd
    · subst hh
      rcases hdel.mp hd with h1 | h1
      · have := hc.refLive h e he h1
        omega
      · omega

theorem RefLive_Remove {c : LRUCache} (h : Nat) (hc : c.RefLive) : (c.Remove h).RefLive := by
  intro i e' he' hd
  simp only [Remove, DeleteEntry, getElem?_modify_some] at he'
  obtain ⟨e, he, rfl⟩ := he'
  by_cases hh : h = i
  · simp only [hh, if_true] at hd ⊢
    by_cases h0 : e.refs = 0
    · simp [h0]
    · simp only [h0, if_false] at hd
      exact absurd (hc i e he hd) h0
  · simp only [hh, if_false] at hd ⊢
    exact hc i e he hd

theorem WF_Remove {c : LRUCache} (h : Nat) (hc : c.WF) : (c.Remove h).WF := by
  refine ⟨MapLive_Remove h hc.mapLive, OutDestroyed_Remove h hc.outDestroyed,
    UnitCharge_Remove h hc.unitCharge, ?_, UniqueKeys_Remove h hc.uniqueKeys,
    RefLive_Remove h hc.refLive⟩
  rcases hc.budget with hb | hb
  · exact Or.inl (le_trans (usage_Remove_le c h) hb)
  · right
    simp [Remove, hb]

theorem WF_Erase {c : LRUCache} (key : Slice) (hc : c.WF) : (c.Erase key).WF := by
  unfold Erase
  split
  · exact hc
  · exact WF_Remove _ hc


theorem WF_New (N : Nat) : (NewLRUCache N).WF := by
  refine ⟨?_, ?_, ?_, ?_, ?_, ?_⟩
  · intro i e he; simp [NewLRUCache] at he
  · intro i e he; simp [NewLRUCache] at he
  · intro i e he; simp [NewLRUCache] at he
  · right; rfl
  · intro a ha; simp [NewLRUCache] at ha
  · intro i e he; simp [NewLRUCache] at he

theorem evictWhileOver_induct (P : LRUCache → Prop) (hP : ∀ c h, P c → P (c.Remove h)) :
    ∀ (fuel : Nat) (c : LRUCache), P c → P (c.evictWhileOver fuel) := by
  intro fuel
  induction fuel with
  | zero => intro c hc; exact hc
  | succ n ih =>
    intro c hc
    unfold evictWhileOver
    split
    · split
      · exact hc
      · exact ih _ (hP _ _ hc)
    · exact hc

theorem evictWhileOver_capacity (fuel : Nat) (c : LRUCache) :
    (c.evictWhileOver fuel).capacity = c.capacity := by
  induction fuel generalizing c with
  | zero => rfl
  | succ n ih =>
    unfold evictWhileOver
    split
    · split
      · rfl
      · rw [ih]; rfl
    · rfl

theorem evictWhileOver_budget :
    ∀ (fuel : Nat) (c : LRUCache), c.lru.length ≤ fuel → (c.evictWhileOver fuel).Budget := by
  intro fuel
  induction fuel with
  | zero =>
    intro c hc
    right
    have : c.lru.length = 0 := by omega
    simpa [evictWhileOver] using this
  | succ n ih =>
    intro c hc
    unfold evictWhileOver
    split
    · split
      · rename_i hl
        exact Or.inr hl
      · rename_i h t hl
        apply ih
        have h1 : (c.Remove h).lru = t.filter (fun x => x != h) := by
          simp [Remove, hl]
        rw [h1]
        have h2 := List.length_filter_le (fun x => x != h) t
        have h3 : c.lru.length = t.length + 1 := by simp [hl]
        omega
    · rename_i hlt
      exact Or.inl (not_lt.mp hlt)

theorem WF_Insert {c : LRUCache} (key : Slice) (value : TableAndFile) (hc : c.WF) :
    (c.Insert key value 1).2.WF := by
  have hA1 : (c.Append key value 1).MapLive := by
    intro i e he hd hi
    simp only [Append, getElem?_concat_some] at he
    simp only [Append, List.mem_append, List.mem_singleton] at hi
    rcases he with he | ⟨-, rfl⟩
    · rcases hi with hi | hi
      · exact hc.mapLive i e he hd hi
      · have := lt_length_of_getElem? he
        omega
    · simp at hd
  have hA2 : (c.Append key value 1).OutDestroyed := by
    intro i e he hi hr
    simp only [Append, getElem?_concat_some] at he
    simp only [Append, List.mem_append, List.mem_singleton, not_or] at hi
    rcases he with he | ⟨h1, -⟩
    · exact hc.outDestroyed i e he hi.1 hr
    · exact absurd h1 hi.2
  have hA3 : (c.Append key value 1).UnitCharge := by
    intro i e he
    simp only [Append, getElem?_concat_some] at he
    rcases he with he | ⟨-, rfl⟩
    · exact hc.unitCharge i e he
    · rfl
  have hA4 : (c.Append key value 1).RefLive := by
    intro i e he hd
    simp only [Append, getElem?_concat_some] at he
    rcases he with he | ⟨-, rfl⟩
    · exact hc.refLive i e he hd
    · simp at hd
  -- the stage after superseding the earlier entry of the key
  have hB : ∃ c2 : LRUCache, (c.Insert key value 1).2 = c2.evictWhileOver c2.lru.length ∧
      c2.MapLive ∧ c2.OutDestroyed ∧ c2.UnitCharge ∧ c2.RefLive ∧ c2.UniqueKeys := by
    unfold Insert
    cases hf : c.find key with
    | none =>
      refine ⟨_, rfl, hA1, hA2, hA3, hA4, ?_⟩
      intro a ha b hb hab ea eb hea heb
      simp only [Append, getElem?_concat_some] at hea heb
      simp only [Append, List.mem_append, List.mem_singleton] at ha hb
      have hn := find_none hf
      rcases hea with hea | ⟨ha1, rfl⟩ <;> rcases heb with heb | ⟨hb1, rfl⟩
      · have hla := lt_length_of_getElem? hea
        have hlb := lt_length_of_getElem? heb
        have ha' : a ∈ c.lru := by rcases ha with ha | ha; exact ha; omega
        have hb' : b ∈ c.lru := by rcases hb with hb | hb; exact hb; omega
        exact hc.uniqueKeys a ha' b hb' hab ea eb hea heb
      · have hla := lt_length_of_getElem? hea
        have ha' : a ∈ c.lru := by rcases ha with ha | ha; exact ha; omega
        exact hn a ha' ea hea
      · have hlb := lt_length_of_getElem? heb
        have hb' : b ∈ c.lru := by rcases hb with hb | hb; exact hb; omega
        exact fun h => hn b hb' eb heb h.symm
      · omega
    | some old =>
      refine ⟨_, rfl, MapLive_Remove old hA1, OutDestroyed_Remove old hA2,
        UnitCharge_Remove old hA3, RefLive_Remove old hA4, ?_⟩
      obtain ⟨hold, eo, heo, hko⟩ := find_some hf
      intro a ha b hb hab ea eb hea heb
      simp only [Remove, DeleteEntry, Append, getElem?_modify_some, getElem?_concat_some] at hea heb
      simp only [Remove, Append, List.mem_filter, List.mem_append, List.mem_singleton,
        bne_iff_ne, ne_eq] at ha hb
      obtain ⟨ea0, hea0, rfl⟩ := hea
      obtain ⟨eb0, heb0, rfl⟩ := heb
      have key_eq : ∀ (x : LRUHandle) (p : Prop) [Decidable p],
          (if p then (if x.refs = 0 then { x with deleted := true } else x) else x).key
            = x.key := by
        intro x p _
        split <;> [split; skip] <;> rfl
      rw [key_eq, key_eq]
      rcases hea0 with hea0 | ⟨ha1, rfl⟩ <;> rcases heb0 with heb0 | ⟨hb1, rfl⟩
      · have hla := lt_length_of_getElem? hea0
        have hlb := lt_length_of_getElem? heb0
        have ha' : a ∈ c.lru := by rcases ha.1 with ha | ha; exact ha; omega
        have hb' : b ∈ c.lru := by rcases hb.1 with hb | hb; exact hb; omega
        exact hc.uniqueKeys a ha' b hb' hab ea0 eb0 hea0 heb0
      · have hla := lt_length_of_getElem? hea0
        have ha' : a ∈ c.lru := by rcases ha.1 with ha | ha; exact ha; omega
        have := hc.uniqueKeys a ha' old hold ha.2 ea0 eo hea0 heo
        rw [hko] at this
        exact this
      · have hlb := lt_length_of_getElem? heb0
        have hb' : b ∈ c.lru := by rcases hb.1 with hb | hb; exact hb; omega
        have := hc.uniqueKeys b hb' old hold hb.2 eb0 eo heb0 heo
        rw [hko] at this
        exact fun h => this h.symm
      · omega
  obtain ⟨c2, h2, hm, ho, hu, hr, hk⟩ := hB
  rw [h2]
  refine ⟨?_, ?_, ?_, evictWhileOver_budget _ _ (le_refl _), ?_, ?_⟩
  · exact evictWhileOver_induct _ (fun _ h => MapLive_Remove h) _ _ hm
  · exact evictWhileOver_induct _ (fun _ h => OutDestroyed_Remove h) _ _ ho
  · exact evictWhileOver_induct _ (fun _ h => UnitCharge_Remove h) _ _ hu
  · exact evictWhileOver_induct _ (fun _ h => UniqueKeys_Remove h) _ _ hk
  · exact evictWhileOver_induct _ (fun _ h => RefLive_Remove h) _ _ hr

theorem Lookup_capacity (c : LRUCache) (key : Slice) : (c.Lookup key).2.capacity = c.capacity := by
  unfold Lookup; split <;> rfl

theorem Insert_capacity (c : LRUCache) (key : Slice) (value : TableAndFile) (charge : Nat) :
    (c.Insert key value charge).2.capacity = c.capacity := by
  unfold Insert
  simp only [evictWhileOver_capacity]
  split <;> rfl

theorem Erase_capacity (c : LRUCache) (key : Slice) : (c.Erase key).capacity = c.capacity := by
  unfold Erase; split <;> rfl


/-! ### Reference counts under the cache operations -/

theorem refsOf_modify (c c' : LRUCache) (g : LRUHandle → LRUHandle) (h i : Nat)
    (he : c'.entries = c.entries.modify g h) :
    c'.refsOf i = match c.entries[i]? with
      | some e => if h = i then (g e).refs else e.refs
      | none => 0 := by
  unfold refsOf
  rw [he, List.getElem?_modify]
  cases c.entries[i]? with
  | none => rfl
  | some e => by_cases hh : h = i <;> simp [hh]

theorem refsOf_Remove (c : LRUCache) (h i : Nat) : (c.Remove h).refsOf i = c.refsOf i := by
  rw [refsOf_modify c (c.Remove h) _ h i rfl]
  unfold refsOf
  cases c.entries[i]? with
  | none => rfl
  | some e =>
    simp only
    split <;> [split; skip] <;> rfl

theorem refsOf_evictWhileOver (fuel : Nat) (c : LRUCache) (i : Nat) :
    (c.evictWhileOver fuel).refsOf i = c.refsOf i :=
  evictWhileOver_induct (fun c' => c'.refsOf i = c.refsOf i)
    (fun c' h hc' => (refsOf_Remove c' h i).trans hc') fuel c rfl

theorem refsOf_Lookup_hit {c : LRUCache} {key : Slice} {h : Nat} (hf : c.find key = some h)
    (i : Nat) : (c.Lookup key).2.refsOf i = c.refsOf i + (if i = h then 1 else 0) := by
  rw [Lookup_hit hf, refsOf_modify c _ _ h i rfl]
  obtain ⟨-, e, he, -⟩ := find_some hf
  unfold refsOf
  by_cases hh : h = i
  · subst hh; simp [he]
  · have : ¬ i = h := fun h1 => hh h1.symm
    cases c.entries[i]? <;> simp [hh, this]

theorem refsOf_Release (c : LRUCache) (h i : Nat) :
    (c.Release h).refsOf i = c.refsOf i - (if i = h then 1 else 0) := by
  rw [refsOf_modify c (c.Release h) _ h i rfl]
  unfold refsOf
  by_cases hh : h = i
  · subst hh
    cases c.entries[h]? with
    | none => simp
    | some e =>
      simp only [if_true]
      split <;> rfl
  · have : ¬ i = h := fun h1 => hh h1.symm
    cases c.entries[i]? <;> simp [hh, this]

theorem refsOf_Append (c : LRUCache) (key : Slice) (value : TableAndFile) (charge i : Nat) :
    (c.Append key value charge).refsOf i =
      c.refsOf i + (if i = c.entries.length then 1 else 0) := by
  unfold refsOf Append
  rcases Nat.lt_trichotomy i c.entries.length with h | h | h
  · simp only [List.getElem?_append_left h]
    have : ¬ i = c.entries.length := by omega
    simp [this]
  · subst h
    simp [List.getElem?_concat_length]
  · have h1 : c.entries[i]? = none := List.getElem?_eq_none (by omega)
    have h2 : ∀ a : LRUHandle, (c.entries ++ [a])[i]? = none :=
      fun a => List.getElem?_eq_none (by simp; omega)
    have : ¬ i = c.entries.length := by omega
    simp [h1, h2, this]

theorem refsOf_Insert (c : LRUCache) (key : Slice) (value : TableAndFile) (charge i : Nat) :
    (c.Insert key value charge).2.refsOf i =
      c.refsOf i + (if i = c.entries.length then 1 else 0) := by
  unfold Insert
  simp only [refsOf_evictWhileOver]
  split
  · rw [refsOf_Remove, refsOf_Append]
  · rw [refsOf_Append]

theorem refsOf_Erase (c : LRUCache) (key : Slice) (i : Nat) :
    (c.Erase key).refsOf i = c.refsOf i := by
  unfold Erase
  split
  · rfl
  · exact refsOf_Remove _ _ _


theorem sum_refs_modify (g : LRUHandle → LRUHandle) :
    ∀ (l : List LRUHandle) (h : Nat),
      ((l.modify g h).map (fun e => e.refs)).sum
          + (match l[h]? with | some e => e.refs | none => 0)
        = (l.map (fun e => e.refs)).sum
          + (match l[h]? with | some e => (g e).refs | none => 0) := by
  intro l
  induction l with
  | nil => intro h; simp
  | cons a t ih =>
    intro h
    cases h with
    | zero => simp; omega
    | succ n =>
      have := ih n
      simp only [List.modify_succ_cons, List.map_cons, List.sum_cons, List.getElem?_cons_succ]
      omega

theorem totalRefs_modify (c c' : LRUCache) (g : LRUHandle → LRUHandle) (h : Nat)
    (hent : c'.entries = c.entries.modify g h) :
    c'.totalRefs + c.refsOf h = c.totalRefs + c'.refsOf h := by
  have := sum_refs_modify g c.entries h
  rw [refsOf_modify c c' g h h hent]
  unfold totalRefs refsOf
  rw [hent]
  cases he : c.entries[h]? with
  | none => rw [he] at this; exact this
  | some e =>
    rw [he] at this
    simp only [if_true]
    exact this

theorem totalRefs_Remove (c : LRUCache) (h : Nat) : (c.Remove h).totalRefs = c.totalRefs := by
  have h1 := totalRefs_modify c (c.Remove h) _ h rfl
  have h2 := refsOf_Remove c h h
  omega

theorem totalRefs_evictWhileOver (fuel : Nat) (c : LRUCache) :
    (c.evictWhileOver fuel).totalRefs = c.totalRefs :=
  evictWhileOver_induct (fun c' => c'.totalRefs = c.totalRefs)
    (fun c' h hc' => (totalRefs_Remove c' h).trans hc') fuel c rfl

theorem totalRefs_Lookup_hit {c : LRUCache} {key : Slice} {h : Nat}
    (hf : c.find key = some h) : (c.Lookup key).2.totalRefs = c.totalRefs + 1 := by
  have key : ∀ c' : LRUCache,
      c'.entries = c.entries.modify (fun e => { e with refs := e.refs + 1 }) h →
      c'.refsOf h = c.refsOf h + 1 → c'.totalRefs = c.totalRefs + 1 := by
    intro c' hent href
    have := totalRefs_modify c c' _ h hent
    omega
  exact key _ (by rw [Lookup_hit hf]) (by simpa using refsOf_Lookup_hit hf h)

theorem totalRefs_Release (c : LRUCache) (h : Nat) (hpos : 0 < c.refsOf h) :
    (c.Release h).totalRefs + 1 = c.totalRefs := by
  have h1 := totalRefs_modify c (c.Release h) _ h rfl
  have h2 := refsOf_Release c h h
  simp only [if_true] at h2
  omega

theorem totalRefs_Append (c : LRUCache) (key : Slice) (value : TableAndFile) (charge : Nat) :
    (c.Append key value charge).totalRefs = c.totalRefs + 1 := by
  simp [totalRefs, Append]

theorem totalRefs_Insert (c : LRUCache) (key : Slice) (value : TableAndFile) (charge : Nat) :
    (c.Insert key value charge).2.totalRefs = c.totalRefs + 1 := by
  unfold Insert
  simp only [totalRefs_evictWhileOver]
  split
  · rw [totalRefs_Remove, totalRefs_Append]
  · rw [totalRefs_Append]

theorem totalRefs_Erase (c : LRUCache) (key : Slice) : (c.Erase key).totalRefs = c.totalRefs := by
  unfold Erase
  split
  · rfl
  · exact totalRefs_Remove _ _

theorem pinned_le_totalRefs (c : LRUCache) : c.pinned ≤ c.totalRefs := by
  unfold pinned totalRefs
  induction c.entries with
  | nil => simp
  | cons a t ih =>
    simp only [List.countP_cons, List.map_cons, List.sum_cons]
    split
    · rename_i h
      simp only [Bool.and_eq_true, decide_eq_true_eq] at h
      omega
    · omega

theorem sum_charge_eq_countP :
    ∀ l : List LRUHandle, (∀ e ∈ l, e.charge = 1) →
      (l.map (fun e => if e.deleted then 0 else e.charge)).sum
        = l.countP (fun e => !e.deleted) := by
  intro l
  induction l with
  | nil => intro _; simp
  | cons a t ih =>
    intro hall
    have ha := hall a (List.mem_cons_self a t)
    have ht := ih (fun e he => hall e (List.mem_cons_of_mem a he))
    simp only [List.map_cons, List.sum_cons, List.countP_cons, ht]
    cases hd : a.deleted <;> simp [ha]
    omega

theorem usage_eq_openFiles {c : LRUCache} (hc : c.UnitCharge) : c.usage = c.openFiles := by
  unfold usage openFiles
  apply sum_charge_eq_countP
  intro e he
  obtain ⟨i, hi⟩ := List.mem_iff_getElem?.mp he
  exact hc i e hi

theorem openFiles_le {c : LRUCache} (hc : c.WF) : c.openFiles ≤ max c.capacity c.pinned := by
  rcases hc.budget with hb | hb
  · rw [usage_eq_openFiles hc.unitCharge] at hb
    exact le_trans hb (le_max_left _ _)
  · refine le_trans ?_ (le_max_right _ _)
    unfold openFiles pinned
    apply List.countP_mono_left
    intro e he hd
    obtain ⟨i, hi⟩ := List.mem_iff_getElem?.mp he
    simp only [Bool.not_eq_true', Bool.and_eq_true, decide_eq_true_eq] at hd ⊢
    refine ⟨hd, ?_⟩
    by_contra h0
    have h0' : e.refs = 0 := by omega
    have := hc.outDestroyed i e hi (by simp [hb]) h0'
    rw [hd] at this
    cases this

end LRUCache

/-! ## Lemmas on the table cache -/


open LRUCache

theorem Insert_fst (c : LRUCache) (key : Slice) (value : TableAndFile) (charge : Nat) :
    (c.Insert key value charge).1 = c.entries.length := rfl

theorem FindTable_hit (tc : TableCache) (env : Env) (n sz : Nat) {h : Nat}
    (hf : tc.cache_.find (EncodeFixed64 n) = some h) :
    tc.FindTable env n sz =
      { s := Status.OK, handle := some h, cache := (tc.cache_.Lookup (EncodeFixed64 n)).2,
        trace := [Event.Lookup (EncodeFixed64 n)] } := by
  unfold TableCache.FindTable
  simp [Lookup_hit hf]

theorem FindTable_cases (tc : TableCache) (env : Env) (n sz : Nat) :
    (∃ h, tc.cache_.find (EncodeFixed64 n) = some h ∧
      (tc.FindTable env n sz).s = Status.OK ∧
      (tc.FindTable env n sz).handle = some h ∧
      (tc.FindTable env n sz).cache = (tc.cache_.Lookup (EncodeFixed64 n)).2) ∨
    (tc.cache_.find (EncodeFixed64 n) = none ∧
      (tc.FindTable env n sz).s.ok = false ∧
      (tc.FindTable env n sz).handle = none ∧
      (tc.FindTable env n sz).cache = tc.cache_) ∨
    (tc.cache_.find (EncodeFixed64 n) = none ∧
      (tc.FindTable env n sz).s.ok = true ∧
      ∃ tf, (tc.FindTable env n sz).handle = some tc.cache_.entries.length ∧
        (tc.FindTable env n sz).cache = (tc.cache_.Insert (EncodeFixed64 n) tf 1).2) := by
  cases hf : tc.cache_.find (EncodeFixed64 n) with
  | some h =>
    left
    rw [FindTable_hit tc env n sz hf]
    exact ⟨h, rfl, rfl, rfl, rfl⟩
  | none =>
    right
    unfold TableCache.FindTable
    simp only [Lookup_miss hf]
    split_ifs <;> simp_all [Insert_fst] <;> exact ⟨_, rfl⟩


theorem FindTable_ok_iff (tc : TableCache) (env : Env) (n sz : Nat) :
    (tc.FindTable env n sz).s.ok = true ↔ (tc.FindTable env n sz).handle ≠ none := by
  rcases FindTable_cases tc env n sz with ⟨h, -, hs, hh, -⟩ | ⟨-, hs, hh, -⟩ | ⟨-, hs, tf, hh, -⟩
  · simp [hs, hh, Status.ok]
  · simp [hs, hh]
  · simp [hs, hh]

/-- The effect of `FindTable` on the invariants, the caller keeping the handle. -/
theorem Inv_FindTable {N : Nat} {w : State} (env : Env) (n sz : Nat) (hw : Inv N w) :
    Inv N { tc := { w.tc with cache_ := (w.tc.FindTable env n sz).cache },
            held := w.held ++ (w.tc.FindTable env n sz).handle.toList } := by
  obtain ⟨hwf, hcap, hrefs, htot⟩ := hw
  rcases FindTable_cases w.tc env n sz with ⟨h, hf, -, hh, hc⟩ | ⟨-, -, hh, hc⟩ |
      ⟨-, -, tf, hh, hc⟩
  · rw [hh, hc]
    refine ⟨WF_Lookup _ hwf, by simpa [Lookup_capacity] using hcap, ?_, ?_⟩
    · intro i
      simp only [refsOf_Lookup_hit hf, hrefs i, Option.toList, List.count_append,
        List.count_singleton]
      by_cases hi : i = h
      · simp [hi]
      · have : ¬ h = i := fun h1 => hi h1.symm
        simp [hi, this]
    · simp [totalRefs_Lookup_hit hf, htot]
  · rw [hh, hc]
    simpa [Inv] using ⟨hwf, hcap, hrefs, htot⟩
  · rw [hh, hc]
    refine ⟨WF_Insert _ _ hwf, by simpa [Insert_capacity] using hcap, ?_, ?_⟩
    · intro i
      simp only [refsOf_Insert, hrefs i, Option.toList, List.count_append,
        List.count_singleton]
      by_cases hi : i = w.tc.cache_.entries.length
      · simp [hi]
      · have : ¬ w.tc.cache_.entries.length = i := fun h1 => hi h1.symm
        simp [hi, this]
    · simp [totalRefs_Insert, htot]


theorem NewIterator_some (tc : TableCache) (env : Env) (n sz : Nat) {it : Iterator}
    (hit : (tc.NewIterator env n sz).result = some it) :
    (tc.NewIterator env n sz).cache = (tc.FindTable env n sz).cache ∧
    it.cleanups = (tc.FindTable env n sz).handle.toList := by
  have hiff := FindTable_ok_iff tc env n sz
  unfold TableCache.NewIterator at hit ⊢
  by_cases hok : (tc.FindTable env n sz).s.ok = true
  · simp only [hok, Bool.not_true, Bool.false_eq_true, if_false] at hit ⊢
    split at hit
    · rename_i handle tf hh htf
      simp only [Option.some.injEq] at hit
      subst hit
      simp [hh, Table.NewIterator, Iterator.RegisterCleanup]
    · simp at hit
  · have hnone : (tc.FindTable env n sz).handle = none := by
      by_contra hne
      exact hok (hiff.mpr hne)
    simp only [hok, Bool.not_false, if_true, Option.some.injEq] at hit ⊢
    subst hit
    simp [hnone, NewErrorIterator]

theorem Get_some (tc : TableCache) (env : Env) (n sz : Nat) (k : Slice) {st : Status}
    (hst : (tc.Get env n sz k).s = some st) :
    ((tc.FindTable env n sz).handle = none ∧
      (tc.Get env n sz k).cache = (tc.FindTable env n sz).cache) ∨
    (∃ h, (tc.FindTable env n sz).handle = some h ∧
      (tc.Get env n sz k).cache = (tc.FindTable env n sz).cache.Release h) := by
  have hiff := FindTable_ok_iff tc env n sz
  unfold TableCache.Get at hst ⊢
  by_cases hok : (tc.FindTable env n sz).s.ok = true
  · right
    simp only [hok, if_true] at hst ⊢
    split at hst
    · rename_i handle tf hh htf
      exact ⟨handle, hh, rfl⟩
    · simp at hst
  · left
    have hnone : (tc.FindTable env n sz).handle = none := by
      by_contra hne
      exact hok (hiff.mpr hne)
    simp [hok, hnone]

theorem Inv_Release {N : Nat} {c : LRUCache} {dbname : String} {held : List Nat} (h : Nat)
    (hh : h ∈ held) (hw : Inv N { tc := { dbname_ := dbname, cache_ := c }, held := held }) :
    Inv N { tc := { dbname_ := dbname, cache_ := c.Release h }, held := held.erase h } := by
  obtain ⟨hwf, hcap, hrefs, htot⟩ := hw
  simp only at hwf hcap hrefs htot
  have hpos : 0 < c.refsOf h := by
    rw [hrefs h]
    exact List.count_pos_iff.mpr hh
  refine ⟨WF_Release h hwf, hcap, ?_, ?_⟩
  · intro i
    simp only [refsOf_Release, hrefs i, List.count_erase]
    by_cases hi : i = h
    · simp [hi]
    · have : ¬ h = i := fun h1 => hi h1.symm
      simp [hi, this]
  · have := totalRefs_Release c h hpos
    have hl := List.length_erase_of_mem hh
    have hlpos : 0 < held.length := List.length_pos_of_mem hh
    simp only at this ⊢
    omega

theorem Inv_step {N : Nat} {w w' : State} (op : Op) (hw : Inv N w)
    (hstep : w.step op = some w') : Inv N w' := by
  cases op with
  | FindTable env n sz =>
    simp only [State.step, Option.some.injEq] at hstep
    subst hstep
    exact Inv_FindTable env n sz hw
  | NewIterator env n sz =>
    simp only [State.step] at hstep
    split at hstep
    · cases hstep
    · rename_i it hit
      simp only [Option.some.injEq] at hstep
      subst hstep
      obtain ⟨hc, hcl⟩ := NewIterator_some w.tc env n sz hit
      rw [hc, hcl]
      exact Inv_FindTable env n sz hw
  | Get env n sz k =>
    simp only [State.step] at hstep
    split at hstep
    · cases hstep
    · rename_i st hst
      simp only [Option.some.injEq] at hstep
      subst hstep
      have hF := Inv_FindTable env n sz hw
      rcases Get_some w.tc env n sz k hst with ⟨hh, hc⟩ | ⟨h, hh, hc⟩
      · rw [hc]
        rw [hh] at hF
        simpa using hF
      · rw [hc]
        rw [hh] at hF
        have := Inv_Release h (by simp) hF
        refine ⟨this.1, this.2.1, ?_, ?_⟩
        · intro i
          have h3 := this.2.2.1 i
          simp only [Option.toList, List.count_erase, List.count_append,
            List.count_singleton] at h3
          rw [h3]
          by_cases hi : h = i
          · simp [hi]
          · simp [hi]
        · have h4 := this.2.2.2
          have hl : ((w.held ++ [h]).erase h).length = w.held.length := by
            rw [List.length_erase_of_mem (by simp)]
            simp
          simp only [Option.toList] at h4
          rw [hl] at h4
          exact h4
  | Evict n =>
    simp only [State.step, TableCache.Evict, Option.some.injEq] at hstep
    subst hstep
    obtain ⟨hwf, hcap, hrefs, htot⟩ := hw
    exact ⟨WF_Erase _ hwf, by simpa [Erase_capacity] using hcap,
      fun i => by simpa [refsOf_Erase] using hrefs i, by simpa [totalRefs_Erase] using htot⟩
  | Cleanup h =>
    simp only [State.step] at hstep
    split at hstep
    · rename_i hh
      simp only [Option.some.injEq] at hstep
      subst hstep
      exact Inv_Release h hh hw
    · cases hstep

theorem Reachable_Inv {dbname : String} {N : Nat} {w : State} (hw : Reachable dbname N w) :
    Inv N w := by
  induction hw with
  | init =>
    refine ⟨WF_New N, rfl, ?_, ?_⟩
    · intro h; simp [TableCache.new, NewLRUCache, refsOf]
    · simp [TableCache.new, NewLRUCache, totalRefs]
  | step op _ hstep ih => exact Inv_step op ih hstep


/-! ## The block handle and the footer -/

theorem EncodeVarint64_length_le (k : Nat) :
    ∀ v : Nat, v < 128 ^ (k + 1) → (EncodeVarint64 v).length ≤ k + 1 := by
  induction k with
  | zero =>
    intro v hv
    rw [EncodeVarint64]
    have : v < 128 := by simpa using hv
    simp [this]
  | succ k ih =>
    intro v hv
    rw [EncodeVarint64]
    split
    · simp
    · have hdiv : v / 128 < 128 ^ (k + 1) := by
        rw [Nat.div_lt_iff_lt_mul (by norm_num)]
        calc v < 128 ^ (k + 1 + 1) := hv
          _ = 128 ^ (k + 1) * 128 := by rw [pow_succ]
      have := ih (v / 128) hdiv
      simp only [List.length_cons]
      omega

theorem EncodeVarint64_length_uint64 (v : Nat) (hv : v < 2 ^ 64) :
    (EncodeVarint64 v).length ≤ 10 := by
  apply EncodeVarint64_length_le 9 v
  calc v < 2 ^ 64 := hv
    _ ≤ 128 ^ (9 + 1) := by norm_num

theorem EncodeVarint64_max : EncodeVarint64 (2 ^ 64 - 1) =
    [255, 255, 255, 255, 255, 255, 255, 255, 255, 1] := by
  simp [EncodeVarint64]

theorem BlockHandle_EncodeTo_length (h : BlockHandle) (ho : h.offset_ < 2 ^ 64)
    (hs : h.size_ < 2 ^ 64) : h.EncodeTo.length ≤ 20 := by
  have h1 := EncodeVarint64_length_uint64 _ ho
  have h2 := EncodeVarint64_length_uint64 _ hs
  simp only [BlockHandle.EncodeTo, List.length_append]
  omega

/-- C8: a block handle with 64-bit offset and size encodes to at most
`BlockHandle::kMaxEncodedLength` = 20 bytes, the bound is attained at
offset = size = 2^64 - 1, so two handles fit in the 40 padded bytes: the
footer encoding is the two handles, zero padding up to 40 bytes and the 8
bytes of the magic number, `Footer::kEncodedLength` = 48 bytes in all. -/
theorem Footer_EncodeTo_length (f : Footer)
    (hmo : f.metaindex_handle_.offset_ < 2 ^ 64) (hms : f.metaindex_handle_.size_ < 2 ^ 64)
    (hio : f.index_handle_.offset_ < 2 ^ 64) (his : f.index_handle_.size_ < 2 ^ 64) :
    f.metaindex_handle_.EncodeTo.length ≤ BlockHandle.kMaxEncodedLength ∧
    f.index_handle_.EncodeTo.length ≤ BlockHandle.kMaxEncodedLength ∧
    BlockHandle.kMaxEncodedLength = 20 ∧
    (BlockHandle.EncodeTo { offset_ := 2 ^ 64 - 1, size_ := 2 ^ 64 - 1 }).length = 20 ∧
    (f.metaindex_handle_.EncodeTo ++ f.index_handle_.EncodeTo).length ≤ 40 ∧
    f.EncodeTo = f.metaindex_handle_.EncodeTo ++ f.index_handle_.EncodeTo
      ++ List.replicate
          (40 - (f.metaindex_handle_.EncodeTo ++ f.index_handle_.EncodeTo).length) 0
      ++ EncodeFixed32 (kTableMagicNumber % 4294967296)
      ++ EncodeFixed32 (kTableMagicNumber / 4294967296) ∧
    f.EncodeTo.length = Footer.kEncodedLength ∧
    Footer.kEncodedLength = 48 := by
  have h1 := BlockHandle_EncodeTo_length _ hmo hms
  have h2 := BlockHandle_EncodeTo_length _ hio his
  have h3 : (f.metaindex_handle_.EncodeTo ++ f.index_handle_.EncodeTo).length ≤ 40 := by
    simp only [List.length_append]; omega
  refine ⟨h1, h2, rfl, ?_, h3, ?_, ?_, rfl⟩
  · simp only [BlockHandle.EncodeTo, EncodeVarint64_max]
    rfl
  · simp only [Footer.EncodeTo, BlockHandle.kMaxEncodedLength, resize]
    rw [List.take_of_length_le h3]
  · simp only [Footer.EncodeTo, BlockHandle.kMaxEncodedLength, Footer.kEncodedLength, resize,
      EncodeFixed32, List.length_append, List.length_take, List.length_replicate,
      List.length_cons, List.length_nil]
    simp only [List.length_append] at h3
    omega

/-- C8 on an example: a footer with the handles (0, 300) and (300, 2^64 - 1). -/
theorem Footer_EncodeTo_length_witness :
    ((0 : Nat) < 2 ^ 64 ∧ (300 : Nat) < 2 ^ 64 ∧ (300 : Nat) < 2 ^ 64 ∧ (2 ^ 64 - 1 : Nat) < 2 ^ 64) ∧
    (Footer.EncodeTo { metaindex_handle_ := { offset_ := 0, size_ := 300 },
                       index_handle_ := { offset_ := 300, size_ := 2 ^ 64 - 1 } }).length
      = Footer.kEncodedLength :=
  ⟨by norm_num,
   (Footer_EncodeTo_length
      { metaindex_handle_ := { offset_ := 0, size_ := 300 },
        index_handle_ := { offset_ := 300, size_ := 2 ^ 64 - 1 } }
      (by norm_num) (by norm_num) (by norm_num) (by norm_num)).2.2.2.2.2.2.1⟩

/-! ## The log frame -/

/-- C9: `kBlockSize` = 32768, `kHeaderSize` = 4 + 2 + 1 = 7, the record types
are Zero = 0, Full = 1, First = 2, Middle = 3, Last = 4 = `kMaxRecordType`,
and a fragment that fits in one block with its header has a payload of at
most `kBlockSize - kHeaderSize` = 32761 bytes, which a 2-byte length holds. -/
theorem log_frame_constants (payload : Nat)
    (hfit : log.kHeaderSize + payload ≤ log.kBlockSize) :
    log.kBlockSize = 32768 ∧ log.kHeaderSize = 7 ∧
    log.RecordType.kZeroType.toNat = 0 ∧ log.RecordType.kFullType.toNat = 1 ∧
    log.RecordType.kFirstType.toNat = 2 ∧ log.RecordType.kMiddleType.toNat = 3 ∧
    log.RecordType.kLastType.toNat = 4 ∧ log.kMaxRecordType = 4 ∧
    (∀ t : log.RecordType, t.toNat ≤ log.kMaxRecordType) ∧
    log.kBlockSize - log.kHeaderSize = 32761 ∧
    payload ≤ log.kBlockSize - log.kHeaderSize ∧ payload < 2 ^ 16 := by
  have h1 : log.kBlockSize = 32768 := rfl
  have h2 : log.kHeaderSize = 7 := rfl
  rw [h1, h2] at hfit
  refine ⟨rfl, rfl, rfl, rfl, rfl, rfl, rfl, rfl, ?_, rfl, ?_, ?_⟩
  · intro t; cases t <;> decide
  · rw [h1, h2]; omega
  · omega

/-- C9 on an example: a payload of 32761 bytes. -/
theorem log_frame_constants_witness :
    log.kHeaderSize + 32761 ≤ log.kBlockSize ∧
    (32761 ≤ log.kBlockSize - log.kHeaderSize ∧ 32761 < 2 ^ 16) :=
  ⟨by decide, (log_frame_constants 32761 (by decide)).2.2.2.2.2.2.2.2.2.2⟩


/-! ## FindTable -/

theorem ok_OK : Status.OK.ok = true := rfl

theorem Lookup_fst_none {c : LRUCache} {key : Slice} (h : (c.Lookup key).1 = none) :
    c.find key = none := by
  unfold Lookup at h
  split at h
  · assumption
  · cases h

theorem Lookup_fst_some {c : LRUCache} {key : Slice} {h : Nat}
    (hl : (c.Lookup key).1 = some h) : c.find key = some h := by
  unfold Lookup at hl
  split at hl
  · cases hl
  · rename_i h1 hf
    simp only [Option.some.injEq] at hl
    rw [hf, hl]

/-- C5: when the 8-byte key of the file number is in the cache, `FindTable`
returns OK with the handle that `Cache::Lookup` returned; the only call it
makes is that `Lookup`: no `NewRandomAccessFile`, no `Table::Open`, no
`Cache::Insert`. -/
theorem FindTable_hit_no_storage (tc : TableCache) (env : Env) (n sz h : Nat)
    (hhit : (tc.cache_.Lookup (EncodeFixed64 n)).1 = some h) :
    (tc.FindTable env n sz).s = Status.OK ∧
    (tc.FindTable env n sz).handle = some h ∧
    (tc.FindTable env n sz).cache = (tc.cache_.Lookup (EncodeFixed64 n)).2 ∧
    (tc.FindTable env n sz).trace = [Event.Lookup (EncodeFixed64 n)] ∧
    (∀ ev ∈ (tc.FindTable env n sz).trace,
      ev.isNewRandomAccessFile = false ∧ ev.isTableOpen = false ∧ ev.isInsert = false) := by
  rw [FindTable_hit tc env n sz (Lookup_fst_some hhit)]
  refine ⟨rfl, rfl, rfl, rfl, ?_⟩
  intro ev hev
  simp only [List.mem_singleton] at hev
  subst hev
  exact ⟨rfl, rfl, rfl⟩

/-- C1: when `FindTable` misses the cache and the file opens under neither
name, or `Table::Open` fails on the file that opened, it returns a non-OK
status and a NULL handle, makes no `Cache::Insert` and leaves the cache as it
was; a `FindTable` for the same file number that follows starts with the
`Lookup` and the open attempt under the current name again, and succeeds when
the file now opens and decodes. -/
theorem FindTable_failure_not_cached (tc : TableCache) (env later : Env) (n sz sz2 : Nat)
    (hmiss : (tc.cache_.Lookup (EncodeFixed64 n)).1 = none)
    (hfail :
      ((env.NewRandomAccessFile (env.TableFileName tc.dbname_ n)).1.ok = false ∧
        (env.NewRandomAccessFile (env.SSTTableFileName tc.dbname_ n)).1.ok = false) ∨
      ((env.NewRandomAccessFile (env.TableFileName tc.dbname_ n)).1.ok = true ∧
        (env.TableOpen (env.NewRandomAccessFile (env.TableFileName tc.dbname_ n)).2
          sz).1.ok = false) ∨
      ((env.NewRandomAccessFile (env.TableFileName tc.dbname_ n)).1.ok = false ∧
        (env.NewRandomAccessFile (env.SSTTableFileName tc.dbname_ n)).1.ok = true ∧
        (env.TableOpen (env.NewRandomAccessFile (env.SSTTableFileName tc.dbname_ n)).2
          sz).1.ok = false)) :
    (tc.FindTable env n sz).s.ok = false ∧
    (tc.FindTable env n sz).handle = none ∧
    (∀ ev ∈ (tc.FindTable env n sz).trace, ev.isInsert = false) ∧
    (tc.FindTable env n sz).cache = tc.cache_ ∧
    (TableCache.FindTable { tc with cache_ := (tc.FindTable env n sz).cache } later n
        sz2).trace.take 2 =
      [Event.Lookup (EncodeFixed64 n),
       Event.NewRandomAccessFile (later.TableFileName tc.dbname_ n)] ∧
    ((later.NewRandomAccessFile (later.TableFileName tc.dbname_ n)).1.ok = true →
      (later.TableOpen (later.NewRandomAccessFile (later.TableFileName tc.dbname_ n)).2
        sz2).1.ok = true →
      (TableCache.FindTable { tc with cache_ := (tc.FindTable env n sz).cache } later n
        sz2).s.ok = true) := by
  have hf := Lookup_fst_none hmiss
  have hcache : (tc.FindTable env n sz).cache = tc.cache_ := by
    unfold TableCache.FindTable
    simp only [Lookup_miss hf]
    rcases hfail with ⟨h1, h2⟩ | ⟨h1, h2⟩ | ⟨h1, h2, h3⟩ <;> simp [h1, h2, ok_OK, *]
  refine ⟨?_, ?_, ?_, hcache, ?_, ?_⟩
  · unfold TableCache.FindTable
    simp only [Lookup_miss hf]
    rcases hfail with ⟨h1, h2⟩ | ⟨h1, h2⟩ | ⟨h1, h2, h3⟩ <;> simp [h1, h2, ok_OK, *]
  · unfold TableCache.FindTable
    simp only [Lookup_miss hf]
    rcases hfail with ⟨h1, h2⟩ | ⟨h1, h2⟩ | ⟨h1, h2, h3⟩ <;> simp [h1, h2, ok_OK, *]
  · unfold TableCache.FindTable
    simp only [Lookup_miss hf]
    rcases hfail with ⟨h1, h2⟩ | ⟨h1, h2⟩ | ⟨h1, h2, h3⟩ <;>
      simp [h1, h2, ok_OK, *, Event.isInsert]
  · rw [hcache]
    unfold TableCache.FindTable
    simp only [Lookup_miss hf]
    split_ifs <;> simp
  · intro h1 h2
    rw [hcache]
    unfold TableCache.FindTable
    simp only [Lookup_miss hf]
    simp [h1, h2]

/-- C1 on an example: table 5 is missing at the first call and opens at the
second. -/
theorem FindTable_failure_not_cached_witness :
    ((TableCache.new "db" 4).cache_.Lookup (EncodeFixed64 5)).1 = none ∧
    (TableCache.FindTable
        { TableCache.new "db" 4 with
          cache_ := ((TableCache.new "db" 4).FindTable envMissing 5 100).cache }
        envOpens 5 100).s.ok = true :=
  ⟨by decide,
   (FindTable_failure_not_cached (TableCache.new "db" 4) envMissing envOpens 5 100 100
      (by decide) (Or.inl ⟨by decide, by decide⟩)).2.2.2.2.2 (by decide) (by decide)⟩

/-- C5 on an example: table 5 is cached and its files are gone. -/
theorem FindTable_hit_no_storage_witness :
    (tcWarm.cache_.Lookup (EncodeFixed64 5)).1 = some 0 ∧
    (tcWarm.FindTable envMissing 5 100).s = Status.OK ∧
    (tcWarm.FindTable envMissing 5 100).handle = some 0 :=
  ⟨by decide,
   (FindTable_hit_no_storage tcWarm envMissing 5 100 0 (by decide)).1,
   (FindTable_hit_no_storage tcWarm envMissing 5 100 0 (by decide)).2.1⟩

/-- C6: on a cache miss `FindTable` opens the file under the current name
first and under the legacy name only when that failed; when one of them opens,
`Table::Open` is called on that file and its status is the status returned
(the status of the failed first attempt is dropped); when both fail,
`Table::Open` is not called and the status of the open attempt under the
current name is returned. -/
theorem FindTable_open_order (tc : TableCache) (env : Env) (n sz : Nat)
    (hmiss : (tc.cache_.Lookup (EncodeFixed64 n)).1 = none) :
    ((env.NewRandomAccessFile (env.TableFileName tc.dbname_ n)).1.ok = true →
      (tc.FindTable env n sz).trace =
        [Event.Lookup (EncodeFixed64 n),
         Event.NewRandomAccessFile (env.TableFileName tc.dbname_ n),
         Event.TableOpen (env.NewRandomAccessFile (env.TableFileName tc.dbname_ n)).2 sz] ++
        (if (env.TableOpen (env.NewRandomAccessFile (env.TableFileName tc.dbname_ n)).2
              sz).1.ok then
          [Event.Insert (EncodeFixed64 n)
            { file := (env.NewRandomAccessFile (env.TableFileName tc.dbname_ n)).2
              table := (env.TableOpen
                (env.NewRandomAccessFile (env.TableFileName tc.dbname_ n)).2 sz).2 } 1]
         else
          [Event.Assert ((env.TableOpen
              (env.NewRandomAccessFile (env.TableFileName tc.dbname_ n)).2 sz).2 == none),
           Event.DeleteFile (env.NewRandomAccessFile (env.TableFileName tc.dbname_ n)).2]) ∧
      (tc.FindTable env n sz).s =
        (env.TableOpen (env.NewRandomAccessFile (env.TableFileName tc.dbname_ n)).2 sz).1) ∧
    ((env.NewRandomAccessFile (env.TableFileName tc.dbname_ n)).1.ok = false →
      (env.NewRandomAccessFile (env.SSTTableFileName tc.dbname_ n)).1.ok = true →
      (tc.FindTable env n sz).trace =
        [Event.Lookup (EncodeFixed64 n),
         Event.NewRandomAccessFile (env.TableFileName tc.dbname_ n),
         Event.NewRandomAccessFile (env.SSTTableFileName tc.dbname_ n),
         Event.TableOpen (env.NewRandomAccessFile (env.SSTTableFileName tc.dbname_ n)).2 sz] ++
        (if (env.TableOpen (env.NewRandomAccessFile (env.SSTTableFileName tc.dbname_ n)).2
              sz).1.ok then
          [Event.Insert (EncodeFixed64 n)
            { file := (env.NewRandomAccessFile (env.SSTTableFileName tc.dbname_ n)).2
              table := (env.TableOpen
                (env.NewRandomAccessFile (env.SSTTableFileName tc.dbname_ n)).2 sz).2 } 1]
         else
          [Event.Assert ((env.TableOpen
              (env.NewRandomAccessFile (env.SSTTableFileName tc.dbname_ n)).2 sz).2 == none),
           Event.DeleteFile (env.NewRandomAccessFile (env.SSTTableFileName tc.dbname_ n)).2]) ∧
      (tc.FindTable env n sz).s =
        (env.TableOpen (env.NewRandomAccessFile (env.SSTTableFileName tc.dbname_ n)).2
          sz).1) ∧
    ((env.NewRandomAccessFile (env.TableFileName tc.dbname_ n)).1.ok = false →
      (env.NewRandomAccessFile (env.SSTTableFileName tc.dbname_ n)).1.ok = false →
      (tc.FindTable env n sz).trace =
        [Event.Lookup (EncodeFixed64 n),
         Event.NewRandomAccessFile (env.TableFileName tc.dbname_ n),
         Event.NewRandomAccessFile (env.SSTTableFileName tc.dbname_ n),
         Event.Assert true,
         Event.DeleteFile (env.NewRandomAccessFile (env.SSTTableFileName tc.dbname_ n)).2] ∧
      (∀ ev ∈ (tc.FindTable env n sz).trace, ev.isTableOpen = false) ∧
      (tc.FindTable env n sz).s =
        (env.NewRandomAccessFile (env.TableFileName tc.dbname_ n)).1) := by
  have hf := Lookup_fst_none hmiss
  refine ⟨?_, ?_, ?_⟩
  · intro h1
    unfold TableCache.FindTable
    simp only [Lookup_miss hf]
    by_cases h3 : (env.TableOpen (env.NewRandomAccessFile
        (env.TableFileName tc.dbname_ n)).2 sz).1.ok = true <;> simp [h1, h3]
  · intro h1 h2
    unfold TableCache.FindTable
    simp only [Lookup_miss hf]
    by_cases h3 : (env.TableOpen (env.NewRandomAccessFile
        (env.SSTTableFileName tc.dbname_ n)).2 sz).1.ok = true <;> simp [h1, h2, h3, ok_OK]
  · intro h1 h2
    unfold TableCache.FindTable
    simp only [Lookup_miss hf]
    simp [h1, h2, Event.isTableOpen]

/-- C6 on an example: table 5 is missing under both names. -/
theorem FindTable_open_order_witness :
    ((TableCache.new "db" 4).cache_.Lookup (EncodeFixed64 5)).1 = none ∧
    ((TableCache.new "db" 4).FindTable envMissing 5 100).s = Status.NotFound "db/5.ldb" :=
  ⟨by decide,
   ((FindTable_open_order (TableCache.new "db" 4) envMissing 5 100 (by decide)).2.2
      (by decide) (by decide)).2.2⟩

theorem FindTable_trace_kinds (tc : TableCache) (env : Env) (n sz : Nat) :
    ∀ ev ∈ (tc.FindTable env n sz).trace,
      (∀ hd, ev ≠ Event.Value hd) ∧ ev.isInternalGet = false ∧ ev.isRelease = false ∧
      ev.isRegisterCleanup = false := by
  cases hf : tc.cache_.find (EncodeFixed64 n) with
  | some h =>
    rw [FindTable_hit tc env n sz hf]
    simp [Event.isInternalGet, Event.isRelease, Event.isRegisterCleanup]
  | none =>
    unfold TableCache.FindTable
    simp only [Lookup_miss hf]
    split_ifs <;> simp [Event.isInternalGet, Event.isRelease, Event.isRegisterCleanup]

theorem FindTable_assert (tc : TableCache) (env : Env) (n sz : Nat)
    (hopen : ∀ f size, (env.TableOpen f size).1.ok = false → (env.TableOpen f size).2 = none) :
    Event.Assert false ∉ (tc.FindTable env n sz).trace := by
  cases hf : tc.cache_.find (EncodeFixed64 n) with
  | some h =>
    rw [FindTable_hit tc env n sz hf]
    simp
  | none =>
    unfold TableCache.FindTable
    simp only [Lookup_miss hf]
    split_ifs <;> simp_all [ok_OK]

/-- C10: at return from `FindTable` the status is OK exactly when `*handle` is
not NULL, and with a `Table::Open` that leaves the table NULL on failure the
assertion `table == NULL` never fails; so `NewIterator` and `Get` call
`cache_->Value` only on a non-NULL handle, and a `NewIterator` whose
`FindTable` failed returns the error iterator carrying that status, with
`*tableptr` NULL and no cleanup registered. -/
theorem FindTable_ok_iff_handle (tc : TableCache) (env : Env) (n sz : Nat) (k : Slice)
    (hopen : ∀ f size, (env.TableOpen f size).1.ok = false → (env.TableOpen f size).2 = none) :
    ((tc.FindTable env n sz).s.ok = true ↔ (tc.FindTable env n sz).handle ≠ none) ∧
    Event.Assert false ∉ (tc.FindTable env n sz).trace ∧
    (∀ hd, Event.Value hd ∈ (tc.NewIterator env n sz).trace → hd ≠ none) ∧
    (∀ hd, Event.Value hd ∈ (tc.Get env n sz k).trace → hd ≠ none) ∧
    ((tc.FindTable env n sz).s.ok = false →
      (tc.NewIterator env n sz).result = some (NewErrorIterator (tc.FindTable env n sz).s) ∧
      (NewErrorIterator (tc.FindTable env n sz).s).status = (tc.FindTable env n sz).s ∧
      (NewErrorIterator (tc.FindTable env n sz).s).cleanups = [] ∧
      (tc.NewIterator env n sz).tableptr = none ∧
      (∀ ev ∈ (tc.NewIterator env n sz).trace, ev.isRegisterCleanup = false)) := by
  have hiff := FindTable_ok_iff tc env n sz
  have hkinds := FindTable_trace_kinds tc env n sz
  refine ⟨hiff, FindTable_assert tc env n sz hopen, ?_, ?_, ?_⟩
  · intro hd hmem
    unfold TableCache.NewIterator at hmem
    by_cases hok : (tc.FindTable env n sz).s.ok = true
    · have hne := hiff.mp hok
      simp only [hok, Bool.not_true, Bool.false_eq_true, if_false] at hmem
      split at hmem <;>
        · simp only [List.mem_append, List.mem_cons, List.mem_singleton, Event.Value.injEq,
            List.mem_nil_iff, or_false, reduceCtorEq] at hmem
          rcases hmem with hmem | hmem
          · exact absurd rfl ((hkinds _ hmem).1 hd)
          · rw [hmem]; exact hne
    · simp only [hok, Bool.not_false, if_true, List.mem_append, List.mem_singleton,
        reduceCtorEq, or_false] at hmem
      exact absurd rfl ((hkinds _ hmem).1 hd)
  · intro hd hmem
    unfold TableCache.Get at hmem
    by_cases hok : (tc.FindTable env n sz).s.ok = true
    · have hne := hiff.mp hok
      simp only [hok, if_true] at hmem
      split at hmem <;>
        · simp only [List.mem_append, List.mem_cons, List.mem_singleton, Event.Value.injEq,
            List.mem_nil_iff, or_false, reduceCtorEq] at hmem
          rcases hmem with hmem | hmem
          · exact absurd rfl ((hkinds _ hmem).1 hd)
          · rw [hmem]; exact hne
    · simp only [hok, if_false] at hmem
      exact absurd rfl ((hkinds _ hmem).1 hd)
  · intro hok
    refine ⟨by simp [TableCache.NewIterator, hok], rfl, rfl,
      by simp [TableCache.NewIterator, hok], ?_⟩
    intro ev hev
    simp only [TableCache.NewIterator, hok, Bool.not_false, if_true, List.mem_append,
      List.mem_singleton] at hev
    rcases hev with hev | hev
    · exact (hkinds ev hev).2.2.2
    · rw [hev]; rfl

/-- C10 on an example: the file of table 5 opens and does not decode. -/
theorem FindTable_ok_iff_handle_witness :
    (∀ f size, (envCorrupt.TableOpen f size).1.ok = false →
      (envCorrupt.TableOpen f size).2 = none) ∧
    ((TableCache.new "db" 4).NewIterator envCorrupt 5 100).result =
      some (NewErrorIterator (Status.Corruption "bad magic number")) :=
  ⟨fun _ _ _ => rfl,
   ((FindTable_ok_iff_handle (TableCache.new "db" 4) envCorrupt 5 100 []
      (fun _ _ _ => rfl)).2.2.2.2 (by decide)).1⟩

theorem Insert_new_entry (c : LRUCache) (key : Slice) (value : TableAndFile) (charge : Nat) :
    ∃ e, (c.Insert key value charge).2.entries[c.entries.length]? = some e ∧
      e.deleted = false ∧ e.refs = 1 ∧ e.value = value ∧ e.key = key := by
  have hA : ∃ e, (c.Append key value charge).entries[c.entries.length]? = some e ∧
      e.deleted = false ∧ e.refs = 1 ∧ e.value = value ∧ e.key = key := by
    refine ⟨{ key := key, value := value, charge := charge, refs := 1, deleted := false },
      ?_, rfl, rfl, rfl, rfl⟩
    · simp only [LRUCache.Append]
      exact List.getElem?_concat_length _ _
  have hR : ∀ (c' : LRUCache) (h : Nat),
      (∃ e, c'.entries[c.entries.length]? = some e ∧
        e.deleted = false ∧ e.refs = 1 ∧ e.value = value ∧ e.key = key) →
      (∃ e, (c'.Remove h).entries[c.entries.length]? = some e ∧
        e.deleted = false ∧ e.refs = 1 ∧ e.value = value ∧ e.key = key) := by
    rintro c' h ⟨e, he, hd, hr, hv, hk⟩
    refine ⟨e, ?_, hd, hr, hv, hk⟩
    simp only [Remove, DeleteEntry, getElem?_modify_some]
    refine ⟨e, he, ?_⟩
    have : ¬ e.refs = 0 := by omega
    simp [this]
  unfold LRUCache.Insert
  apply evictWhileOver_induct _ hR
  split
  · exact hR _ _ hA
  · exact hA

/-- After a successful `FindTable` on a cache whose map holds no destroyed
entry, the handle names an entry that `Value` can read. -/
theorem FindTable_Value (tc : TableCache) (env : Env) (n sz : Nat) (hlive : tc.cache_.MapLive)
    (hok : (tc.FindTable env n sz).s.ok = true) :
    ∃ h tf, (tc.FindTable env n sz).handle = some h ∧
      (tc.FindTable env n sz).cache.Value (some h) = some tf := by
  rcases FindTable_cases tc env n sz with ⟨h, hf, -, hh, hc⟩ | ⟨-, hs, -, -⟩ | ⟨-, -, tf, hh, hc⟩
  · obtain ⟨hmem, e, he, -⟩ := find_some hf
    have hd : e.deleted = false := by
      cases hde : e.deleted with
      | false => rfl
      | true => exact absurd hmem (hlive h e he hde)
    refine ⟨h, e.value, hh, ?_⟩
    rw [hc, Lookup_hit hf]
    simp [Value, he, hd]
  · rw [hok] at hs; cases hs
  · obtain ⟨e, he, hd, -, hv, -⟩ := Insert_new_entry tc.cache_ (EncodeFixed64 n) tf 1
    refine ⟨_, tf, hh, ?_⟩
    rw [hc]
    simp [Value, he, hd, hv]

/-- C3: on a cache whose map answers no destroyed entry (every reachable cache
is one), when `FindTable` succeeds, `Get` calls `InternalGet` once on the
table of the entry, then releases the handle once, whatever `InternalGet`
returned, and returns that status; every reference count is afterwards what
it was before the call.  When `FindTable` fails, `Get` returns its status and
calls neither `InternalGet` nor `Release`. -/
theorem Get_releases_handle (tc : TableCache) (env : Env) (n sz : Nat) (k : Slice)
    (hlive : tc.cache_.MapLive) :
    ((tc.FindTable env n sz).s.ok = true →
      ∃ h tf, (tc.FindTable env n sz).handle = some h ∧
        (tc.FindTable env n sz).cache.Value (some h) = some tf ∧
        (tc.Get env n sz k).trace = (tc.FindTable env n sz).trace ++
          [Event.Value (some h), Event.InternalGet tf.table k, Event.Release h] ∧
        (tc.Get env n sz k).trace.countP Event.isInternalGet = 1 ∧
        (tc.Get env n sz k).trace.countP Event.isRelease = 1 ∧
        (tc.Get env n sz k).s = some (env.InternalGet tf.table k) ∧
        (tc.Get env n sz k).cache = (tc.FindTable env n sz).cache.Release h ∧
        (∀ i, (tc.Get env n sz k).cache.refsOf i = tc.cache_.refsOf i)) ∧
    ((tc.FindTable env n sz).s.ok = false →
      (tc.Get env n sz k).s = some (tc.FindTable env n sz).s ∧
      (tc.Get env n sz k).trace = (tc.FindTable env n sz).trace ∧
      (tc.Get env n sz k).cache = tc.cache_ ∧
      (∀ ev ∈ (tc.Get env n sz k).trace, ev.isInternalGet = false ∧ ev.isRelease = false)) := by
  have hkinds := FindTable_trace_kinds tc env n sz
  have hcountG : (tc.FindTable env n sz).trace.countP Event.isInternalGet = 0 := by
    rw [List.countP_eq_zero]
    intro ev hev
    simp [(hkinds ev hev).2.1]
  have hcountR : (tc.FindTable env n sz).trace.countP Event.isRelease = 0 := by
    rw [List.countP_eq_zero]
    intro ev hev
    simp [(hkinds ev hev).2.2.1]
  refine ⟨?_, ?_⟩
  · intro hok
    obtain ⟨h, tf, hh, hv⟩ := FindTable_Value tc env n sz hlive hok
    have hget : tc.Get env n sz k =
        { s := some (env.InternalGet tf.table k),
          cache := (tc.FindTable env n sz).cache.Release h,
          trace := (tc.FindTable env n sz).trace ++
            [Event.Value (some h), Event.InternalGet tf.table k, Event.Release h] } := by
      unfold TableCache.Get
      simp only [hok, if_true, hh, hv]
    refine ⟨h, tf, hh, hv, by rw [hget], ?_, ?_, by rw [hget], by rw [hget], ?_⟩
    · rw [hget]
      simp only [List.countP_append, hcountG]
      rfl
    · rw [hget]
      simp only [List.countP_append, hcountR]
      rfl
    · intro i
      rw [hget]
      simp only [refsOf_Release]
      rcases FindTable_cases tc env n sz with ⟨h2, hf, -, hh2, hc⟩ | ⟨-, hs, -, -⟩ |
          ⟨-, -, tf2, hh2, hc⟩
      · rw [hh] at hh2
        cases hh2
        rw [hc, refsOf_Lookup_hit hf]
        omega
      · rw [hok] at hs; cases hs
      · rw [hh] at hh2
        cases hh2
        rw [hc, refsOf_Insert]
        omega
  · intro hok
    have hget : tc.Get env n sz k =
        { s := some (tc.FindTable env n sz).s, cache := (tc.FindTable env n sz).cache,
          trace := (tc.FindTable env n sz).trace } := by
      unfold TableCache.Get
      simp [hok]
    have hcache : (tc.FindTable env n sz).cache = tc.cache_ := by
      rcases FindTable_cases tc env n sz with ⟨h2, -, hs, -, -⟩ | ⟨-, -, -, hc⟩ | ⟨-, hs, -⟩
      · rw [hs] at hok; cases hok
      · exact hc
      · rw [hok] at hs; cases hs
    refine ⟨by rw [hget], by rw [hget], by rw [hget, hcache], ?_⟩
    intro ev hev
    rw [hget] at hev
    exact ⟨(hkinds ev hev).2.1, (hkinds ev hev).2.2.1⟩

/-- C3 on an example: a `Get` on the cached table 5 whose `InternalGet` fails. -/
theorem Get_releases_handle_witness :
    tcWarm.cache_.MapLive ∧
    (tcWarm.Get envLegacy 5 100 [1, 2]).s = some (Status.NotFound "key") ∧
    (tcWarm.Get envLegacy 5 100 [1, 2]).cache.refsOf 0 = tcWarm.cache_.refsOf 0 :=
  ⟨(WF_Insert _ _ (WF_New 4)).mapLive,
   by decide,
   by
    obtain ⟨_, _, _, _, _, _, _, _, _, h⟩ :=
      (Get_releases_handle tcWarm envLegacy 5 100 [1, 2]
        (WF_Insert _ _ (WF_New 4)).mapLive).1 (by decide)
    exact h 0⟩

/-! ## Eviction -/

theorem EncodeFixed64_injective (n m : Nat) (hn : n < 2 ^ 64) (hm : m < 2 ^ 64)
    (h : EncodeFixed64 n = EncodeFixed64 m) : n = m := by
  simp only [EncodeFixed64, List.cons.injEq, and_true] at h
  omega

theorem find?_filter_of_imp (p q : Nat → Bool) :
    ∀ l : List Nat, (∀ x ∈ l, q x = true → p x = true) → (l.filter p).find? q = l.find? q := by
  intro l
  induction l with
  | nil => intro _; rfl
  | cons a t ih =>
    intro h
    have ht := ih (fun x hx => h x (List.mem_cons_of_mem a hx))
    have ha := h a (List.mem_cons_self a t)
    by_cases hq : q a = true
    · simp [List.filter_cons, ha hq, List.find?_cons, hq]
    · have hq2 : q a = false := by simpa using hq
      by_cases hp : p a = true
      · simp [List.filter_cons, hp, List.find?_cons, hq2, ht]
      · simp [List.filter_cons, hp, List.find?_cons, hq2, ht]

theorem hasKey_Remove (c : LRUCache) (h : Nat) (key : Slice) (x : Nat) :
    (c.Remove h).hasKey key x = c.hasKey key x := by
  unfold hasKey
  simp only [Remove, List.getElem?_modify]
  cases c.entries[x]? with
  | none => rfl
  | some e =>
    simp only [Option.map_eq_map, Option.map_some']
    split <;> [split; skip] <;> rfl

theorem find_Remove_other {c : LRUCache} {h : Nat} {key : Slice}
    (hh : c.hasKey key h = false) : (c.Remove h).find key = c.find key := by
  unfold find
  have : (c.Remove h).hasKey key = c.hasKey key := funext (hasKey_Remove c h key)
  rw [this]
  simp only [Remove]
  apply find?_filter_of_imp
  intro x _ hx
  simp only [bne_iff_ne, ne_eq]
  intro hxh
  rw [hxh, hh] at hx
  cases hx

theorem find_Erase_self {c : LRUCache} (hu : c.UniqueKeys) (key : Slice) :
    (c.Erase key).find key = none := by
  unfold Erase
  cases hf : c.find key with
  | none => simpa using hf
  | some h =>
    simp only
    obtain ⟨hmem, e, he, hk⟩ := find_some hf
    unfold find
    rw [List.find?_eq_none]
    intro x hx
    rw [hasKey_Remove]
    simp only [Remove, List.mem_filter, bne_iff_ne, ne_eq] at hx
    unfold hasKey
    cases hex : c.entries[x]? with
    | none => simp
    | some ex =>
      have := hu x hx.1 h hmem hx.2 ex e hex he
      rw [hk] at this
      simpa using this

theorem find_Erase_other (c : LRUCache) {key key2 : Slice} (hne : key ≠ key2) :
    (c.Erase key).find key2 = c.find key2 := by
  unfold Erase
  cases hf : c.find key with
  | none => rfl
  | some h =>
    simp only
    obtain ⟨-, e, he, hk⟩ := find_some hf
    apply find_Remove_other
    unfold hasKey
    rw [he]
    simp only [beq_eq_false_iff_ne, ne_eq]
    rw [hk]
    exact hne

theorem ok_eq_OK {s : Status} (h : s.ok = true) : s = Status.OK := by
  cases s <;> simp [Status.ok] at h ⊢

theorem Erase_entries_length (c : LRUCache) (key : Slice) :
    (c.Erase key).entries.length = c.entries.length := by
  unfold Erase
  split
  · rfl
  · simp [Remove]

theorem FindTable_miss_ok (tc : TableCache) (env : Env) (n sz : Nat)
    (hf : tc.cache_.find (EncodeFixed64 n) = none) (hok : (tc.FindTable env n sz).s.ok = true) :
    ∃ tf, (tc.FindTable env n sz).handle = some tc.cache_.entries.length ∧
      (tc.FindTable env n sz).cache = (tc.cache_.Insert (EncodeFixed64 n) tf 1).2 ∧
      Event.Insert (EncodeFixed64 n) tf 1 ∈ (tc.FindTable env n sz).trace ∧
      (tc.FindTable env n sz).cache.Value (some tc.cache_.entries.length) = some tf := by
  have hval : ∀ tf, (tc.cache_.Insert (EncodeFixed64 n) tf 1).2.Value
      (some tc.cache_.entries.length) = some tf := by
    intro tf
    obtain ⟨e, he, hd, -, hv, -⟩ := Insert_new_entry tc.cache_ (EncodeFixed64 n) tf 1
    simp [Value, he, hd, hv]
  unfold TableCache.FindTable at hok ⊢
  simp only [Lookup_miss hf] at hok ⊢
  split_ifs at hok ⊢ <;> first
    | exact ⟨_, rfl, rfl, by simp, hval _⟩
    | (simp_all)

/-- C4: `Evict(n)` erases the key `EncodeFixed64(n)`, the key that
`FindTable(n)` looks up and inserts, and that encoding is injective on 64-bit
numbers.  So a `FindTable(n)` directly after `Evict(n)` misses the cache and
opens the file again: when the file opens (under the current or the legacy
name) and decodes, it returns OK with the handle of a newly inserted entry;
when the file is gone under both names it fails with the status of the open
attempt; and the map answers every other file number as before the
`Evict(n)`. -/
theorem Evict_then_FindTable {dbname : String} {N : Nat} {w : State}
    (hw : Reachable dbname N w) (env : Env) (n m sz : Nat)
    (hn : n < 2 ^ 64) (hm : m < 2 ^ 64) :
    (w.tc.Evict n).2 = [Event.Erase (EncodeFixed64 n)] ∧
    (w.tc.Evict n).1.cache_ = w.tc.cache_.Erase (EncodeFixed64 n) ∧
    (EncodeFixed64 n = EncodeFixed64 m → n = m) ∧
    ((w.tc.Evict n).1.cache_.Lookup (EncodeFixed64 n)).1 = none ∧
    ((w.tc.Evict n).1.FindTable env n sz).trace.take 2 =
      [Event.Lookup (EncodeFixed64 n),
       Event.NewRandomAccessFile (env.TableFileName w.tc.dbname_ n)] ∧
    ((env.NewRandomAccessFile (env.TableFileName w.tc.dbname_ n)).1.ok = true →
      (env.TableOpen (env.NewRandomAccessFile (env.TableFileName w.tc.dbname_ n)).2
        sz).1.ok = true →
      ((w.tc.Evict n).1.FindTable env n sz).s = Status.OK) ∧
    ((env.NewRandomAccessFile (env.TableFileName w.tc.dbname_ n)).1.ok = false →
      (env.NewRandomAccessFile (env.SSTTableFileName w.tc.dbname_ n)).1.ok = true →
      (env.TableOpen (env.NewRandomAccessFile (env.SSTTableFileName w.tc.dbname_ n)).2
        sz).1.ok = true →
      ((w.tc.Evict n).1.FindTable env n sz).s = Status.OK) ∧
    (((w.tc.Evict n).1.FindTable env n sz).s.ok = true →
      ∃ tf, ((w.tc.Evict n).1.FindTable env n sz).handle = some w.tc.cache_.entries.length ∧
        w.tc.cache_.entries[w.tc.cache_.entries.length]? = none ∧
        Event.Insert (EncodeFixed64 n) tf 1 ∈ ((w.tc.Evict n).1.FindTable env n sz).trace ∧
        ((w.tc.Evict n).1.FindTable env n sz).cache.Value (some w.tc.cache_.entries.length)
          = some tf) ∧
    ((env.NewRandomAccessFile (env.TableFileName w.tc.dbname_ n)).1.ok = false →
      (env.NewRandomAccessFile (env.SSTTableFileName w.tc.dbname_ n)).1.ok = false →
      ((w.tc.Evict n).1.FindTable env n sz).s =
        (env.NewRandomAccessFile (env.TableFileName w.tc.dbname_ n)).1 ∧
      ((w.tc.Evict n).1.FindTable env n sz).handle = none) ∧
    (n ≠ m →
      (w.tc.Evict n).1.cache_.find (EncodeFixed64 m) = w.tc.cache_.find (EncodeFixed64 m)) := by
  have hwf := (Reachable_Inv hw).1
  have hf : (w.tc.Evict n).1.cache_.find (EncodeFixed64 n) = none :=
    find_Erase_self hwf.uniqueKeys _
  have hdb : (w.tc.Evict n).1.dbname_ = w.tc.dbname_ := rfl
  refine ⟨rfl, rfl, EncodeFixed64_injective n m hn hm, ?_, ?_, ?_, ?_, ?_, ?_, ?_⟩
  · rw [Lookup_miss hf]
  · unfold TableCache.FindTable
    simp only [Lookup_miss hf, hdb]
    split_ifs <;> simp
  · intro h1 h2
    apply ok_eq_OK
    unfold TableCache.FindTable
    simp only [Lookup_miss hf, hdb]
    simp [h1, h2]
  · intro h1 h2 h3
    apply ok_eq_OK
    unfold TableCache.FindTable
    simp only [Lookup_miss hf, hdb]
    simp [h1, h2, h3, ok_OK]
  · intro hok
    obtain ⟨tf, h1, -, h3, h4⟩ := FindTable_miss_ok _ env n sz hf hok
    have hlen : (w.tc.Evict n).1.cache_.entries.length = w.tc.cache_.entries.length :=
      Erase_entries_length _ _
    rw [hlen] at h1 h4
    exact ⟨tf, h1, List.getElem?_eq_none (le_refl _), h3, h4⟩
  · intro h1 h2
    unfold TableCache.FindTable
    simp only [Lookup_miss hf, hdb]
    simp [h1, h2]
  · intro hne
    apply find_Erase_other
    intro heq
    exact hne (EncodeFixed64_injective n m hn hm heq)

theorem stateOneIterator_reachable : Reachable "db" 4 stateOneIterator :=
  Reachable.step (w := { tc := TableCache.new "db" 4, held := [] })
    (Op.NewIterator envOpens 5 100) Reachable.init (by rfl)

/-- C4 on an example: table 5 is evicted after its file was deleted. -/
theorem Evict_then_FindTable_witness :
    Reachable "db" 4 stateOneIterator ∧ (5 : Nat) < 2 ^ 64 ∧ (6 : Nat) < 2 ^ 64 ∧
    ((stateOneIterator.tc.Evict 5).1.FindTable envMissing 5 100).s
      = Status.NotFound "db/5.ldb" :=
  ⟨stateOneIterator_reachable, by norm_num, by norm_num,
   ((Evict_then_FindTable stateOneIterator_reachable
      envMissing 5 6 100 (by norm_num) (by norm_num)).2.2.2.2.2.2.2.2.1 (by decide)
      (by decide)).1⟩

/-! ## Iterators and the entry budget -/

theorem Reachable_trans {dbname : String} {N : Nat} {w1 w2 : State}
    (h1 : Reachable dbname N w1) (h12 : Reaches w1 w2) : Reachable dbname N w2 := by
  induction h12 with
  | refl => exact h1
  | step op _ hstep ih => exact Reachable.step op ih hstep

theorem stateTwoIterators_reachable : Reachable "db" 1 stateTwoIterators :=
  Reachable.step (w := { tc := { dbname_ := "db", cache_ :=
          { capacity := 1
            entries :=
              [{ key := EncodeFixed64 1
                 value := { file := some { id := 8 }, table := some { id := 100 } }
                 charge := 1, refs := 1, deleted := false }]
            lru := [0] } }, held := [0] })
    (Op.NewIterator envOpens 2 100)
    (Reachable.step (w := { tc := TableCache.new "db" 1, held := [] })
      (Op.NewIterator envOpens 1 100) Reachable.init (by rfl))
    (by rfl)

theorem held_live {dbname : String} {N : Nat} {w : State} (hw : Reachable dbname N w)
    {h : Nat} (hh : h ∈ w.held) :
    w.tc.cache_.live h = true ∧ 1 ≤ w.tc.cache_.refsOf h ∧
    w.tc.cache_.refsOf h = w.held.count h := by
  obtain ⟨hwf, -, hrefs, -⟩ := Reachable_Inv hw
  have hpos : 0 < w.held.count h := List.count_pos_iff.mpr hh
  have hr := hrefs h
  refine ⟨?_, by omega, hr⟩
  unfold live
  unfold refsOf at hr
  cases he : w.tc.cache_.entries[h]? with
  | none => rw [he] at hr; simp only at hr; omega
  | some e =>
    rw [he] at hr
    simp only at hr
    cases hd : e.deleted with
    | false => simp [hd]
    | true =>
      have := hwf.refLive h e he hd
      omega

/-! ### The stored values never change -/

theorem valueOf_modify (c c' : LRUCache) (g : LRUHandle → LRUHandle) (h i : Nat)
    (hg : ∀ e, (g e).value = e.value) (hent : c'.entries = c.entries.modify g h) :
    c'.valueOf i = c.valueOf i := by
  unfold LRUCache.valueOf
  rw [hent, List.getElem?_modify]
  cases c.entries[i]? with
  | none => rfl
  | some e =>
    by_cases hh : h = i
    · simp [hh, hg]
    · simp [hh]

theorem valueOf_Remove (c : LRUCache) (h i : Nat) : (c.Remove h).valueOf i = c.valueOf i := by
  apply valueOf_modify c (c.Remove h) _ h i _ rfl
  intro e
  split <;> rfl

theorem valueOf_Release (c : LRUCache) (h i : Nat) :
    (c.Release h).valueOf i = c.valueOf i := by
  apply valueOf_modify c (c.Release h) _ h i _ rfl
  intro e
  split <;> rfl

theorem valueOf_Lookup (c : LRUCache) (key : Slice) (i : Nat) :
    (c.Lookup key).2.valueOf i = c.valueOf i := by
  cases hf : c.find key with
  | none => rw [Lookup_miss hf]
  | some h =>
    rw [Lookup_hit hf]
    exact valueOf_modify c _ (fun e => { e with refs := e.refs + 1 }) h i (fun _ => rfl) rfl

theorem valueOf_Erase (c : LRUCache) (key : Slice) (i : Nat) :
    (c.Erase key).valueOf i = c.valueOf i := by
  unfold LRUCache.Erase
  split
  · rfl
  · exact valueOf_Remove _ _ _

theorem valueOf_evictWhileOver (fuel : Nat) (c : LRUCache) (i : Nat) :
    (c.evictWhileOver fuel).valueOf i = c.valueOf i :=
  evictWhileOver_induct (fun c' => c'.valueOf i = c.valueOf i)
    (fun c' h hc' => (valueOf_Remove c' h i).trans hc') fuel c rfl

theorem valueOf_Append {c : LRUCache} {i : Nat} {tf : TableAndFile}
    (key : Slice) (value : TableAndFile) (charge : Nat) (hv : c.valueOf i = some tf) :
    (c.Append key value charge).valueOf i = some tf := by
  unfold LRUCache.valueOf at hv ⊢
  cases he : c.entries[i]? with
  | none => rw [he] at hv; cases hv
  | some e =>
    have hlt := lt_length_of_getElem? he
    simp only [LRUCache.Append, List.getElem?_append_left hlt]
    rw [he] at hv ⊢
    exact hv

theorem valueOf_Insert {c : LRUCache} {i : Nat} {tf : TableAndFile}
    (key : Slice) (value : TableAndFile) (charge : Nat) (hv : c.valueOf i = some tf) :
    (c.Insert key value charge).2.valueOf i = some tf := by
  unfold LRUCache.Insert
  simp only [valueOf_evictWhileOver]
  split
  · rw [valueOf_Remove]
    exact valueOf_Append key value charge hv
  · exact valueOf_Append key value charge hv

theorem valueOf_FindTable {tc : TableCache} {i : Nat} {tf : TableAndFile}
    (env : Env) (n sz : Nat) (hv : tc.cache_.valueOf i = some tf) :
    (tc.FindTable env n sz).cache.valueOf i = some tf := by
  rcases FindTable_cases tc env n sz with ⟨h, -, -, -, hc⟩ | ⟨-, -, -, hc⟩ | ⟨-, -, tf2, -, hc⟩
  · rw [hc, valueOf_Lookup]; exact hv
  · rw [hc]; exact hv
  · rw [hc]; exact valueOf_Insert _ _ _ hv

theorem valueOf_step {w w' : State} {i : Nat} {tf : TableAndFile} (op : Op)
    (hstep : w.step op = some w') (hv : w.tc.cache_.valueOf i = some tf) :
    w'.tc.cache_.valueOf i = some tf := by
  cases op with
  | FindTable env n sz =>
    simp only [State.step, Option.some.injEq] at hstep
    subst hstep
    exact valueOf_FindTable env n sz hv
  | NewIterator env n sz =>
    simp only [State.step] at hstep
    split at hstep
    · cases hstep
    · rename_i it hit
      simp only [Option.some.injEq] at hstep
      subst hstep
      rw [(NewIterator_some w.tc env n sz hit).1]
      exact valueOf_FindTable env n sz hv
  | Get env n sz k =>
    simp only [State.step] at hstep
    split at hstep
    · cases hstep
    · rename_i st hst
      simp only [Option.some.injEq] at hstep
      subst hstep
      rcases Get_some w.tc env n sz k hst with ⟨-, hc⟩ | ⟨h, -, hc⟩
      · rw [hc]
        exact valueOf_FindTable env n sz hv
      · rw [hc]
        simp only [valueOf_Release]
        exact valueOf_FindTable env n sz hv
  | Evict n =>
    simp only [State.step, TableCache.Evict, Option.some.injEq] at hstep
    subst hstep
    simp only [valueOf_Erase]
    exact hv
  | Cleanup h =>
    simp only [State.step] at hstep
    split at hstep
    · simp only [Option.some.injEq] at hstep
      subst hstep
      simp only [UnrefEntry, valueOf_Release]
      exact hv
    · cases hstep

theorem valueOf_Reaches {w1 w2 : State} {i : Nat} {tf : TableAndFile}
    (h12 : Reaches w1 w2) (hv : w1.tc.cache_.valueOf i = some tf) :
    w2.tc.cache_.valueOf i = some tf := by
  induction h12 with
  | refl => exact hv
  | step op _ hstep ih => exact valueOf_step op hstep ih

theorem valueOf_of_Value {c : LRUCache} {h : Nat} {tf : TableAndFile}
    (hv : c.Value (some h) = some tf) : c.valueOf h = some tf := by
  unfold LRUCache.Value at hv
  unfold LRUCache.valueOf
  cases he : c.entries[h]? with
  | none => simp [he] at hv
  | some e =>
    simp only [he] at hv ⊢
    split at hv
    · cases hv
    · exact hv

theorem Value_of_live {c : LRUCache} {h : Nat} {tf : TableAndFile}
    (hl : c.live h = true) (hv : c.valueOf h = some tf) : c.Value (some h) = some tf := by
  unfold LRUCache.live at hl
  unfold LRUCache.valueOf at hv
  unfold LRUCache.Value
  cases he : c.entries[h]? with
  | none => simp [he] at hl
  | some e =>
    simp only [he] at hl hv ⊢
    simp only [Bool.not_eq_true'] at hl
    simp [hl, hv]

/-- C2: a successful `NewIterator` returns an iterator with exactly one
registered cleanup, `UnrefEntry` with the handle obtained from `FindTable`.
However the clients go on (further lookups and inserts that evict by
capacity, `Evict`, other cleanups), as long as the cleanup of this handle is
pending, `DeleteEntry` has not run on the entry, its file and table can still
be read through the handle, and its reference count is at least 1;
destroying the iterator runs the cleanup, which releases exactly one
reference. -/
theorem NewIterator_holds_reference {dbname : String} {N : Nat} {w : State}
    (hw : Reachable dbname N w) (env : Env) (n sz : Nat)
    (hok : (w.tc.FindTable env n sz).s.ok = true) :
    ∃ (h : Nat) (tf : TableAndFile) (it : Iterator),
      (w.tc.FindTable env n sz).handle = some h ∧
      (w.tc.NewIterator env n sz).result = some it ∧
      (w.tc.NewIterator env n sz).trace = (w.tc.FindTable env n sz).trace ++
        [Event.Value (some h), Event.TableNewIterator tf.table, Event.RegisterCleanup h] ∧
      (w.tc.NewIterator env n sz).trace.countP Event.isRegisterCleanup = 1 ∧
      it.cleanups = [h] ∧
      (w.tc.NewIterator env n sz).cache.Value (some h) = some tf ∧
      (∀ w2 : State,
        Reaches { tc := { w.tc with cache_ := (w.tc.NewIterator env n sz).cache },
                  held := w.held ++ it.cleanups } w2 →
        h ∈ w2.held →
          w2.tc.cache_.live h = true ∧
          w2.tc.cache_.Value (some h) = some tf ∧
          1 ≤ w2.tc.cache_.refsOf h ∧
          it.destroy w2.tc.cache_ = UnrefEntry w2.tc.cache_ h ∧
          (it.destroy w2.tc.cache_).refsOf h + 1 = w2.tc.cache_.refsOf h ∧
          w2.step (Op.Cleanup h) =
            some { tc := { w2.tc with cache_ := it.destroy w2.tc.cache_ },
                   held := w2.held.erase h }) := by
  have hlive := (Reachable_Inv hw).1.mapLive
  obtain ⟨h, tf, hh, hv⟩ := FindTable_Value w.tc env n sz hlive hok
  have hkinds := FindTable_trace_kinds w.tc env n sz
  have hcount : (w.tc.FindTable env n sz).trace.countP Event.isRegisterCleanup = 0 := by
    rw [List.countP_eq_zero]
    intro ev hev
    simp [(hkinds ev hev).2.2.2]
  have hnew : w.tc.NewIterator env n sz =
      { result := some ((Table.NewIterator tf.table).RegisterCleanup h),
        tableptr := tf.table, cache := (w.tc.FindTable env n sz).cache,
        trace := (w.tc.FindTable env n sz).trace ++
          [Event.Value (some h), Event.TableNewIterator tf.table,
           Event.RegisterCleanup h] } := by
    unfold TableCache.NewIterator
    simp only [hok, Bool.not_true, Bool.false_eq_true, if_false, hh, hv]
  refine ⟨h, tf, (Table.NewIterator tf.table).RegisterCleanup h, hh, by simp only [hnew],
    by simp only [hnew], ?_, rfl, by simp only [hnew, hv], ?_⟩
  · rw [hnew]
    simp only [List.countP_append, hcount]
    rfl
  · intro w2 hreach hmem
    have hit : (w.tc.NewIterator env n sz).result =
        some ((Table.NewIterator tf.table).RegisterCleanup h) := by simp only [hnew]
    have hw1 : Reachable dbname N
        { tc := { w.tc with cache_ := (w.tc.NewIterator env n sz).cache },
          held := w.held ++ ((Table.NewIterator tf.table).RegisterCleanup h).cleanups } :=
      Reachable.step (Op.NewIterator env n sz) hw (by simp [State.step, hit])
    have hw2 := Reachable_trans hw1 hreach
    obtain ⟨h1, h2, -⟩ := held_live hw2 hmem
    have hv1 : (w.tc.NewIterator env n sz).cache.valueOf h = some tf := by
      simp only [hnew]
      exact valueOf_of_Value hv
    have hv2 := valueOf_Reaches hreach hv1
    have hd : ((Table.NewIterator tf.table).RegisterCleanup h).destroy w2.tc.cache_
        = UnrefEntry w2.tc.cache_ h := by
      simp [Iterator.destroy, Iterator.RegisterCleanup, Table.NewIterator]
    refine ⟨h1, Value_of_live h1 hv2, h2, hd, ?_, ?_⟩
    · rw [hd]
      simp only [UnrefEntry, refsOf_Release, if_true]
      omega
    · rw [hd]
      simp [State.step, hmem]

/-- C2 on an example: with the iterator on table 5 alive, `NewIterator` on
table 6 returns handle 1; after `Evict(6)` the map no longer answers table 6,
and the entry behind handle 1 is still open with one reference. -/
theorem NewIterator_holds_reference_witness :
    Reachable "db" 4 stateOneIterator ∧
    (stateOneIterator.tc.FindTable envOpens 6 100).s.ok = true ∧
    (TableCache.Evict
      { stateOneIterator.tc with
        cache_ := (stateOneIterator.tc.NewIterator envOpens 6 100).cache } 6).1.cache_.find
        (EncodeFixed64 6) = none ∧
    (TableCache.Evict
      { stateOneIterator.tc with
        cache_ := (stateOneIterator.tc.NewIterator envOpens 6 100).cache } 6).1.cache_.live 1
        = true ∧
    1 ≤ (TableCache.Evict
      { stateOneIterator.tc with
        cache_ := (stateOneIterator.tc.NewIterator envOpens 6 100).cache } 6).1.cache_.refsOf 1 :=
  ⟨stateOneIterator_reachable, by decide, by decide,
   by
    obtain ⟨h, tf, it, h1, -, -, -, h5, -, h7⟩ :=
      NewIterator_holds_reference stateOneIterator_reachable envOpens 6 100 (by decide)
    have e : (stateOneIterator.tc.FindTable envOpens 6 100).handle = some 1 := by decide
    rw [e] at h1
    have hh : h = 1 := (Option.some.inj h1).symm
    subst hh
    rw [h5] at h7
    have := h7
      { tc := (TableCache.Evict
          { stateOneIterator.tc with
            cache_ := (stateOneIterator.tc.NewIterator envOpens 6 100).cache } 6).1
        held := stateOneIterator.held ++ [1] }
      (Reaches.step (Op.Evict 6) (Reaches.refl _) rfl) (by decide)
    exact ⟨this.1, this.2.2.1⟩⟩

/-- C7, counterexample: with an entry budget of 1, two `NewIterator` calls on
two tables leave two table files open while both iterators are alive. -/
theorem openFiles_exceeds_budget :
    Reachable "db" 1 stateTwoIterators ∧
    stateTwoIterators.tc.cache_.openFiles = 2 ∧
    ¬ stateTwoIterators.tc.cache_.openFiles ≤ 1 :=
  ⟨stateTwoIterators_reachable, by decide, by decide⟩

/-- C7, amended: in every reachable state of a table cache with an entry
budget of `N`, the number of open table files is at most `N` plus the number
of handles obtained and not yet released (one per live iterator); it is at
most `N` when no handle is held. -/
theorem openFiles_bound {dbname : String} {N : Nat} {w : State}
    (hw : Reachable dbname N w) :
    w.tc.cache_.openFiles ≤ N + w.held.length ∧
    (w.held = [] → w.tc.cache_.openFiles ≤ N) := by
  obtain ⟨hwf, hcap, -, htot⟩ := Reachable_Inv hw
  have h1 := openFiles_le hwf
  rw [hcap] at h1
  have h2 : w.tc.cache_.pinned ≤ w.held.length := by
    rw [← htot]
    exact pinned_le_totalRefs _
  refine ⟨?_, ?_⟩
  · rcases le_max_iff.mp h1 with h | h <;> omega
  · intro hnil
    rw [hnil] at h2
    simp only [List.length_nil] at h2
    rcases le_max_iff.mp h1 with h | h <;> omega

/-- C7, amended, on an example: two live iterators, budget 1. -/
theorem openFiles_bound_witness :
    Reachable "db" 1 stateTwoIterators ∧
    stateTwoIterators.tc.cache_.openFiles ≤ 1 + stateTwoIterators.held.length :=
  ⟨stateTwoIterators_reachable, (openFiles_bound stateTwoIterators_reachable).1⟩

end leveldb
